import Mathlib

/-!
Verification development for the TLS-intercepting secret-mediating forward
proxy (safareli/http-proxy).  The TypeScript sources are shallowly embedded:
pure functions become Lean functions on `String` / `List`; JavaScript string
builtins (`includes`, `replaceAll`, `replace`, `split`, `indexOf`) are
modelled by explicit recursive functions over `List Char`; the `Headers`
object is modelled as an association list with lower-cased unique keys (the
canonical form `Headers` iteration yields); thrown exceptions become
`Except String`.
-/

deriving instance DecidableEq for Except

namespace HttpProxy

/-! ## JavaScript string primitives, modelled over `List Char` -/

/-- ASCII upper-casing of one character (JS `toUpperCase` on the ASCII
range; the configured HTTP methods are ASCII). -/
def charUpper (c : Char) : Char :=
  if 'a' ≤ c && c ≤ 'z' then Char.ofNat (c.toNat - 32) else c

/-- Model of JS `String.prototype.toUpperCase` (ASCII range). -/
def strToUpper (s : String) : String :=
  ⟨s.toList.map charUpper⟩

/-- Model of JS `String.prototype.includes` restricted to a starting scan:
does `needle` occur as a prefix of `s`?  (`List.isPrefixOf` with `Char`.) -/
def isPrefixL (needle s : List Char) : Bool :=
  match needle, s with
  | [], _ => true
  | _ :: _, [] => false
  | n :: ns, c :: cs => n = c && isPrefixL ns cs

/-- Model of JS `String.prototype.startsWith`. -/
def strStartsWith (s pre : String) : Bool :=
  isPrefixL pre.toList s.toList

/-- Model of JS `String.prototype.endsWith`. -/
def strEndsWith (s suf : String) : Bool :=
  isPrefixL suf.toList.reverse s.toList.reverse

/-- Model of JS `String.prototype.includes`: does `needle` occur as a
contiguous substring of `s`?  JS scans every start position left to right. -/
def containsL (needle : List Char) : List Char → Bool
  | [] => isPrefixL needle []
  | c :: cs => isPrefixL needle (c :: cs) || containsL needle cs

/-- JS `s.includes(needle)`. -/
def strContains (s needle : String) : Bool :=
  containsL needle.toList s.toList

/-- Index of the first occurrence of character `c`, JS `s.indexOf(c)` as an
option: `none` models `-1`. -/
def firstIdxL (c : Char) : List Char → Option Nat
  | [] => none
  | x :: xs => if x = c then some 0 else (firstIdxL c xs).map (· + 1)

/-- Split at the first occurrence of `c`: models the
`idx = s.indexOf(c); s.slice(0, idx) / s.slice(idx + 1)` pattern used by
`matchesPattern`.  `none` when `c` does not occur. -/
def splitFirstL (c : Char) : List Char → Option (List Char × List Char)
  | [] => none
  | x :: xs =>
    if x = c then some ([], xs)
    else (splitFirstL c xs).map (fun p => (x :: p.1, p.2))

/-- Split at the first occurrence of `c`, on strings. -/
def splitFirstStr (c : Char) (s : String) : Option (String × String) :=
  (splitFirstL c s.toList).map (fun p => (⟨p.1⟩, ⟨p.2⟩))

/-- Model of JS `String.prototype.split` with a one-character separator:
always returns at least one (possibly empty) piece. -/
def splitOnCharL (c : Char) : List Char → List (List Char)
  | [] => [[]]
  | x :: xs =>
    let r := splitOnCharL c xs
    if x = c then [] :: r
    else
      match r with
      | [] => [[x]]
      | h :: t => (x :: h) :: t

/-- JS `s.split(c)` for a one-character separator. -/
def strSplitOn (c : Char) (s : String) : List String :=
  (splitOnCharL c s.toList).map (fun l => ⟨l⟩)

/-- Joining with a one-character separator (JS `Array.prototype.join`). -/
def joinWithL (c : Char) : List (List Char) → List Char
  | [] => []
  | [x] => x
  | x :: y :: t => x ++ c :: joinWithL c (y :: t)

/-- JS `parts.join(sep)` for a one-character separator. -/
def strJoinWith (c : Char) (parts : List String) : String :=
  ⟨joinWithL c (parts.map String.toList)⟩

/-- JS `path.split("?")[0]`: the part of the string before the first
question mark (`split` always yields a nonempty array, so index 0 exists). -/
def stripQuery (s : String) : String :=
  ⟨(splitOnCharL '?' s.toList).headI⟩

/-- The backquote character, kept as a named constant. -/
def backquoteChar : Char := Char.ofNat 96

/-- The apostrophe character, kept as a named constant. -/
def quoteChar : Char := Char.ofNat 39

/-- ECMAScript GetSubstitution for a string search pattern, applied to the
replacement template by both `String.prototype.replace` and
`String.prototype.replaceAll`: a dollar followed by a dollar yields a
literal dollar; followed by an ampersand it yields the matched substring
(the search string itself); followed by a backquote, the part of the
original subject string before the match; followed by an apostrophe, the
part after the match.  A dollar in any other position (including `$n` and
`$<`, since a string search has no capture groups) stays literal and
scanning continues at the next character. -/
def getSubstitution (matched pre suf : List Char) : List Char → List Char
  | [] => []
  | [c] => [c]
  | c :: d :: rest2 =>
    if c = '$' then
      if d = '$' then '$' :: getSubstitution matched pre suf rest2
      else if d = '&' then matched ++ getSubstitution matched pre suf rest2
      else if d = backquoteChar then pre ++ getSubstitution matched pre suf rest2
      else if d = quoteChar then suf ++ getSubstitution matched pre suf rest2
      else c :: getSubstitution matched pre suf (d :: rest2)
    else c :: getSubstitution matched pre suf (d :: rest2)

/-- Fuel-driven core of JS `String.prototype.replaceAll` for a nonempty
needle: scan left to right; at a match emit the GetSubstitution expansion
of the replacement (the matched text is the needle, `pre` is the portion
of the original subject before the match, the dropped remainder the
portion after it) and continue after the matched characters; the emitted
replacement is not rescanned.  `pre` accumulates the already-scanned
original characters. -/
def replaceAllFuel (fake real : List Char) : Nat → List Char → List Char → List Char
  | 0, _, s => s
  | _ + 1, _, [] => []
  | n + 1, pre, c :: rest =>
    if fake ≠ [] ∧ isPrefixL fake (c :: rest) then
      getSubstitution fake pre (rest.drop (fake.length - 1)) real ++
        replaceAllFuel fake real n (pre ++ fake) (rest.drop (fake.length - 1))
    else
      c :: replaceAllFuel fake real n (pre ++ [c]) rest

/-- Empty-needle case of JS `replaceAll`: the GetSubstitution expansion of
the replacement is inserted before every character and at the end, with an
empty match at each position. -/
def replaceAllEmptyScan (real : List Char) : List Char → List Char → List Char
  | pre, [] => getSubstitution [] pre [] real
  | pre, c :: rest =>
    getSubstitution [] pre (c :: rest) real ++ c :: replaceAllEmptyScan real (pre ++ [c]) rest

/-- Model of JS `value.replaceAll(fake, real)`, GetSubstitution included. -/
def replaceAll (s fake real : String) : String :=
  if fake = "" then
    ⟨replaceAllEmptyScan real.toList [] s.toList⟩
  else
    ⟨replaceAllFuel fake.toList real.toList s.toList.length [] s.toList⟩

/-- Core of JS `String.prototype.replace` (first occurrence only), with
the same GetSubstitution treatment of the replacement. -/
def replaceFirstL (fake real : List Char) : List Char → List Char → List Char
  | _, [] => []
  | pre, c :: rest =>
    if fake ≠ [] ∧ isPrefixL fake (c :: rest) then
      getSubstitution fake pre (rest.drop (fake.length - 1)) real ++
        rest.drop (fake.length - 1)
    else
      c :: replaceFirstL fake real (pre ++ [c]) rest

/-- Model of JS `s.replace(fake, real)`: replaces the first occurrence. -/
def replaceFirst (s fake real : String) : String :=
  if fake = "" then ⟨getSubstitution [] [] s.toList real.toList ++ s.toList⟩
  else ⟨replaceFirstL fake.toList real.toList [] s.toList⟩

/-- Proof-side variant of the replacement scan that always inserts the
replacement text literally.  It coincides with `replaceAllFuel` whenever
the replacement contains no dollar character, in which case
`getSubstitution` is the identity on it. -/
def replaceAllLiteralFuel (fake real : List Char) : Nat → List Char → List Char
  | 0, s => s
  | _ + 1, [] => []
  | n + 1, c :: rest =>
    if fake ≠ [] ∧ isPrefixL fake (c :: rest) then
      real ++ replaceAllLiteralFuel fake real n (rest.drop (fake.length - 1))
    else
      c :: replaceAllLiteralFuel fake real n rest

/-! ## GraphQL value ASTs (the `ValueNode` shape of the graphql library) -/

/-- Opening brace character, kept as a named constant. -/
def lbraceChar : Char := Char.ofNat 123

/-- Closing brace character, kept as a named constant. -/
def rbraceChar : Char := Char.ofNat 125

/-- One-character string holding an opening brace. -/
def lbraceStr : String := ⟨[lbraceChar]⟩

/-- One-character string holding a closing brace. -/
def rbraceStr : String := ⟨[rbraceChar]⟩

/-- GraphQL value AST, mirroring the `ValueNode` kinds used by
`matchValueNode` in `src/graphql.ts`: VARIABLE, INT, FLOAT, STRING,
BOOLEAN, NULL, ENUM, LIST, OBJECT.  INT and FLOAT keep the raw literal
string exactly as the graphql AST does (`value` is a string there). -/
inductive GQLValue where
  | varV (name : String)
  | intV (raw : String)
  | floatV (raw : String)
  | strV (s : String)
  | boolV (b : Bool)
  | nullV
  | enumV (s : String)
  | listV (xs : List GQLValue)
  | objV (fields : List (String × GQLValue))

/-- Kind discriminant of a value node (models `node.kind` comparison). -/
def GQLValue.kindIdx : GQLValue → Nat
  | .varV _ => 0
  | .intV _ => 1
  | .floatV _ => 2
  | .strV _ => 3
  | .boolV _ => 4
  | .nullV => 5
  | .enumV _ => 6
  | .listV _ => 7
  | .objV _ => 8

/-- Parsed GraphQL field node: name plus ordered named arguments
(the `FieldNode` shape that `parseFieldString` extracts). -/
structure FieldNode where
  name : String
  args : List (String × GQLValue)

/-! ## Model of the external graphql parser on single-field strings

The source wraps a field string `s` in a minimal document and parses it with
the external graphql library; `parseFieldString` then extracts the first
field.  Modelled here as a recursive-descent parser for one field over the
GraphQL grammar: names are `[_A-Za-z][_0-9A-Za-z]*`; whitespace, line
terminators and commas are insignificant; values are variables, int/float
literals, strings with escapes, `true`/`false`/`null`, enums, lists and
input objects.  The model requires the whole string to be a single field
(the source's only inputs are single-field expressions). -/

/-- GraphQL ignored tokens: whitespace, tabs, line terminators, commas. -/
def isGqlWs (c : Char) : Bool :=
  c = ' ' || c = '\t' || c = '\n' || c = '\r' || c = ','

/-- Skip ignored tokens. -/
def skipWs : List Char → List Char
  | [] => []
  | c :: cs => if isGqlWs c then skipWs cs else c :: cs

/-- First character of a GraphQL name. -/
def isNameStart (c : Char) : Bool := c.isAlpha || c = '_'

/-- Subsequent characters of a GraphQL name. -/
def isNameChar (c : Char) : Bool := c.isAlphanum || c = '_'

/-- Consume a GraphQL name. -/
def takeName : List Char → Option (String × List Char)
  | [] => none
  | c :: cs =>
    if isNameStart c then
      let p := cs.span isNameChar
      some (⟨c :: p.1⟩, p.2)
    else none

/-- Numeric value of a hexadecimal digit. -/
def hexVal (c : Char) : Option Nat :=
  if c.isDigit then some (c.toNat - 48)
  else if 'a' ≤ c && c ≤ 'f' then some (c.toNat - 87)
  else if 'A' ≤ c && c ≤ 'F' then some (c.toNat - 55)
  else none

/-- Consume the body of a GraphQL string literal after the opening quote,
handling the escape sequences of the grammar; stops at the closing quote.
Line terminators inside a string are a parse error. -/
def takeStrChars : List Char → Option (List Char × List Char)
  | [] => none
  | '\"' :: rest => some ([], rest)
  | '\\' :: 'u' :: h1 :: h2 :: h3 :: h4 :: rest => do
    let a ← hexVal h1
    let b ← hexVal h2
    let c ← hexVal h3
    let d ← hexVal h4
    let (chars, rem) ← takeStrChars rest
    pure (Char.ofNat (((a * 16 + b) * 16 + c) * 16 + d) :: chars, rem)
  | '\\' :: e :: rest => do
    let c ←
      if e = '\"' then some '\"'
      else if e = '\\' then some '\\'
      else if e = '/' then some '/'
      else if e = 'b' then some (Char.ofNat 8)
      else if e = 'f' then some (Char.ofNat 12)
      else if e = 'n' then some '\n'
      else if e = 'r' then some '\r'
      else if e = 't' then some '\t'
      else none
    let (chars, rem) ← takeStrChars rest
    pure (c :: chars, rem)
  | '\n' :: _ => none
  | '\r' :: _ => none
  | c :: rest => do
    let (chars, rem) ← takeStrChars rest
    pure (c :: chars, rem)

/-- Consume a GraphQL int or float literal, keeping the raw text.
Grammar: `-? (0 | [1-9][0-9]*) (. [0-9]+)? ((e|E) (+|-)? [0-9]+)?`;
a leading zero may not be followed by another digit. -/
def takeNumber (s : List Char) : Option (GQLValue × List Char) :=
  let sign : List Char × List Char :=
    match s with
    | '-' :: rest => (['-'], rest)
    | _ => ([], s)
  match sign.2 with
  | [] => none
  | d :: rest =>
    if ¬ d.isDigit then none
    else if d = '0' && (rest.headD ' ').isDigit then none
    else
      let intPart :=
        if d = '0' then (([] : List Char), rest) else rest.span Char.isDigit
      let intRaw := sign.1 ++ d :: intPart.1
      let afterInt := intPart.2
      let frac : Option (List Char × List Char) :=
        match afterInt with
        | '.' :: f :: fs =>
          if f.isDigit then
            let p := fs.span Char.isDigit
            some ('.' :: f :: p.1, p.2)
          else none
        | _ => none
      match frac with
      | some (fracRaw, afterFrac) =>
        match takeExponent afterFrac with
        | some (expRaw, afterExp) =>
          some (.floatV ⟨intRaw ++ fracRaw ++ expRaw⟩, afterExp)
        | none =>
          if afterFrac.headD ' ' = 'e' || afterFrac.headD ' ' = 'E' then none
          else some (.floatV ⟨intRaw ++ fracRaw⟩, afterFrac)
      | none =>
        match afterInt with
        | '.' :: _ => none
        | _ =>
          match takeExponent afterInt with
          | some (expRaw, afterExp) =>
            some (.floatV ⟨intRaw ++ expRaw⟩, afterExp)
          | none =>
            if afterInt.headD ' ' = 'e' || afterInt.headD ' ' = 'E' then none
            else some (.intV ⟨intRaw⟩, afterInt)
where
  /-- Consume an exponent part `(e|E) (+|-)? [0-9]+` if present. -/
  takeExponent (s : List Char) : Option (List Char × List Char) :=
    match s with
    | e :: rest =>
      if e = 'e' || e = 'E' then
        let esign : List Char × List Char :=
          match rest with
          | '+' :: r => (['+'], r)
          | '-' :: r => (['-'], r)
          | _ => ([], rest)
        match esign.2 with
        | d :: ds =>
          if d.isDigit then
            let p := ds.span Char.isDigit
            some (e :: esign.1 ++ d :: p.1, p.2)
          else none
        | [] => none
      else none
    | [] => none

mutual

/-- Fueled parser for a GraphQL value.  The fuel only bounds nesting of the
recursive grammar; every call site supplies at least the input length,
which is sufficient because each recursive call consumes input. -/
def parseValueF : Nat → List Char → Option (GQLValue × List Char)
  | 0, _ => none
  | n + 1, s =>
    match skipWs s with
    | [] => none
    | '$' :: rest => do
      let (nm, rem) ← takeName rest
      pure (.varV nm, rem)
    | '\"' :: rest => do
      let (chars, rem) ← takeStrChars rest
      pure (.strV ⟨chars⟩, rem)
    | '[' :: rest => do
      let (xs, rem) ← parseListItemsF n rest
      pure (.listV xs, rem)
    | c :: rest =>
      if c = lbraceChar then do
        let (fs, rem) ← parseObjFieldsF n rest
        pure (.objV fs, rem)
      else if c = '-' || c.isDigit then takeNumber (c :: rest)
      else do
        let (nm, rem) ← takeName (c :: rest)
        if nm = "true" then pure (.boolV true, rem)
        else if nm = "false" then pure (.boolV false, rem)
        else if nm = "null" then pure (.nullV, rem)
        else pure (.enumV nm, rem)

/-- Fueled parser for the values of a GraphQL list, up to `]`. -/
def parseListItemsF : Nat → List Char → Option (List GQLValue × List Char)
  | 0, _ => none
  | n + 1, s =>
    match skipWs s with
    | ']' :: rem => some ([], rem)
    | s2 => do
      let (v, rem) ← parseValueF n s2
      let (vs, rem2) ← parseListItemsF n rem
      pure (v :: vs, rem2)

/-- Fueled parser for the fields of a GraphQL input object, up to the
closing brace. -/
def parseObjFieldsF : Nat → List Char → Option (List (String × GQLValue) × List Char)
  | 0, _ => none
  | n + 1, s =>
    match skipWs s with
    | [] => none
    | c :: rem =>
      if c = rbraceChar then some ([], rem)
      else do
        let (nm, rem2) ← takeName (c :: rem)
        match skipWs rem2 with
        | ':' :: rem3 => do
          let (v, rem4) ← parseValueF n rem3
          let (fs, rem5) ← parseObjFieldsF n rem4
          pure ((nm, v) :: fs, rem5)
        | _ => none

end

/-- Fueled parser for a field argument list after the opening parenthesis:
`Name : Value` repeated, up to `)`.  GraphQL requires at least one
argument inside parentheses, which the caller checks. -/
def parseArgItemsF : Nat → List Char → Option (List (String × GQLValue) × List Char)
  | 0, _ => none
  | n + 1, s =>
    match skipWs s with
    | ')' :: rem => some ([], rem)
    | s2 => do
      let (nm, rem2) ← takeName s2
      match skipWs rem2 with
      | ':' :: rem3 => do
        let (v, rem4) ← parseValueF n rem3
        let (args, rem5) ← parseArgItemsF n rem4
        pure ((nm, v) :: args, rem5)
      | _ => none

/-- Model of `parseFieldString` from `src/graphql.ts`: wrap the string in a
minimal document, run the external graphql parser, return the first field
of the only operation, or `null` on any parse error.  The model parses one
field — `Name` followed by an optional non-empty parenthesised argument
list — and requires the remainder of the string to be ignored tokens. -/
def parseFieldString (s : String) : Option FieldNode := do
  let cs := skipWs s.toList
  let (nm, rem) ← takeName cs
  match skipWs rem with
  | '(' :: rem2 => do
    let (args, rem3) ← parseArgItemsF (s.toList.length + 1) rem2
    if args.isEmpty then none
    else
      match skipWs rem3 with
      | [] => some ⟨nm, args⟩
      | _ => none
  | [] => some ⟨nm, []⟩
  | _ => none

/-! ## Value AST matching (`matchValueNode` in `src/graphql.ts`) -/

/-- Error message thrown by `matchValueNode` for a non-`$ANY` variable. -/
def unknownVarMsg (name : String) : String :=
  "Unknown variable $" ++ name ++
    " in grant/rejection pattern. Only $ANY is supported."

mutual

/-- Fueled model of `matchValueNode`: a `$ANY` variable in the pattern
matches anything; any other pattern variable throws; different kinds do
not match; scalars compare by value; lists compare pairwise after a length
check; objects need equal field counts and every pattern field present by
name in the request.  Fuel bounds the structural descent and every call
site supplies `sizeOf` of the pattern, which suffices. -/
def matchValueNodeF : Nat → GQLValue → GQLValue → Except String Bool
  | 0, _, _ => .error "fuel exhausted"
  | n + 1, p, r =>
    match p with
    | .varV nm => if nm = "ANY" then .ok true else .error (unknownVarMsg nm)
    | _ =>
      if p.kindIdx ≠ r.kindIdx then .ok false
      else
        match p, r with
        | .nullV, _ => .ok true
        | .intV a, .intV b => .ok (a = b)
        | .floatV a, .floatV b => .ok (a = b)
        | .strV a, .strV b => .ok (a = b)
        | .boolV a, .boolV b => .ok (a = b)
        | .enumV a, .enumV b => .ok (a = b)
        | .listV ps, .listV rs =>
          if ps.length ≠ rs.length then .ok false
          else matchValueListF n ps rs
        | .objV pf, .objV rf =>
          if pf.length ≠ rf.length then .ok false
          else matchValueFieldsF n rf pf
        | _, _ => .ok false

/-- Pairwise list matching with the short-circuit semantics of JS
`Array.prototype.every`: a `false` stops the scan before later elements
can throw. -/
def matchValueListF : Nat → List GQLValue → List GQLValue → Except String Bool
  | 0, _, _ => .error "fuel exhausted"
  | _ + 1, [], _ => .ok true
  | _ + 1, _ :: _, [] => .ok false
  | n + 1, p :: ps, r :: rs =>
    match matchValueNodeF n p r with
    | .error e => .error e
    | .ok false => .ok false
    | .ok true => matchValueListF n ps rs

/-- Object field matching: for each pattern field in order, find the
request field of the same name (`Array.prototype.find`) and match the
values; a missing field stops with `false`. -/
def matchValueFieldsF : Nat → List (String × GQLValue) → List (String × GQLValue) →
    Except String Bool
  | 0, _, _ => .error "fuel exhausted"
  | _ + 1, _, [] => .ok true
  | n + 1, rf, (nm, v) :: ps =>
    match rf.find? (fun f => f.1 = nm) with
    | none => .ok false
    | some rfield =>
      match matchValueNodeF n v rfield.2 with
      | .error e => .error e
      | .ok false => .ok false
      | .ok true => matchValueFieldsF n rf ps

end

/-- Argument-list matching of `matchesGraphQLFieldPattern`: for each
pattern argument, find the request argument of the same name and match
the value ASTs; a missing argument stops with `false`.  Fueled like the
value matcher; callers supply the pattern string length, which bounds the
pattern AST size. -/
def matchArgListF (rargs : List (String × GQLValue)) :
    Nat → List (String × GQLValue) → Except String Bool
  | 0, _ => .error "fuel exhausted"
  | _ + 1, [] => .ok true
  | n + 1, (nm, v) :: ps =>
    match rargs.find? (fun a => a.1 = nm) with
    | none => .ok false
    | some rarg =>
      match matchValueNodeF n v rarg.2 with
      | .error e => .error e
      | .ok false => .ok false
      | .ok true => matchArgListF rargs n ps

/-- Model of `matchesGraphQLFieldPattern` in `src/graphql.ts`: parse both
field strings (a parse failure of either is `false`), require equal field
names and argument counts, then match each pattern argument against the
request argument of the same name. -/
def matchesGraphQLFieldPattern (patternFieldStr requestFieldStr : String) :
    Except String Bool :=
  match parseFieldString patternFieldStr, parseFieldString requestFieldStr with
  | some pn, some rn =>
    if pn.name ≠ rn.name then .ok false
    else if pn.args.length ≠ rn.args.length then .ok false
    else matchArgListF rn.args (patternFieldStr.toList.length + 1) pn.args
  | _, _ => .ok false

/-! ## JSON values and their GraphQL-ish serialization (`src/graphql.ts`)

`JSONValue` in the source is the recursive sum of string, number, boolean,
null, array and object.  Numbers are restricted to integers in the model
(the claims never depend on non-integral numerics, and JS prints integral
numbers in plain decimal exactly as `Int.repr` does).  Arrays and objects
are represented by mutual inductives rather than nested `List` so that all
recursions stay structural and kernel-computable. -/

mutual

/-- JSON-compatible value (`JSONValue` in `src/graphql.ts`). -/
inductive JSONValue where
  | strJ (s : String)
  | intJ (n : Int)
  | boolJ (b : Bool)
  | nullJ
  | arrJ (xs : JSONArr)
  | objJ (fs : JSONObj)

/-- Spine of a JSON array. -/
inductive JSONArr where
  | nil
  | cons (hd : JSONValue) (tl : JSONArr)

/-- Spine of a JSON object: ordered fields. -/
inductive JSONObj where
  | nil
  | cons (k : String) (v : JSONValue) (tl : JSONObj)

end

/-- Hexadecimal digit character for a value below 16. -/
def hexDigit (n : Nat) : Char :=
  if n < 10 then Char.ofNat (48 + n) else Char.ofNat (87 + n)

/-- JSON string escaping of one character, as `JSON.stringify` does it. -/
def jsonEscapeChar (c : Char) : List Char :=
  if c = '\"' then ['\\', '\"']
  else if c = '\\' then ['\\', '\\']
  else if c = '\n' then ['\\', 'n']
  else if c = '\r' then ['\\', 'r']
  else if c = '\t' then ['\\', 't']
  else if c = Char.ofNat 8 then ['\\', 'b']
  else if c = Char.ofNat 12 then ['\\', 'f']
  else if c.toNat < 32 then
    ['\\', 'u', '0', '0', hexDigit (c.toNat / 16), hexDigit (c.toNat % 16)]
  else [c]

/-- Model of `JSON.stringify` on a string: quote and escape. -/
def jsonQuote (s : String) : String :=
  ⟨'\"' :: (s.toList.map jsonEscapeChar).flatten ++ ['\"']⟩

mutual

/-- Model of `serializeJsValue` in `src/graphql.ts`: GraphQL-like syntax,
strings JSON-quoted, arrays bracketed with `, ` separators, objects braced
with `key: value` entries. -/
def serializeJsValue : JSONValue → String
  | .nullJ => "null"
  | .strJ s => jsonQuote s
  | .intJ n => toString n
  | .boolJ b => if b then "true" else "false"
  | .arrJ xs => "[" ++ serializeJsArr xs ++ "]"
  | .objJ fs => lbraceStr ++ serializeJsObj fs ++ rbraceStr

/-- Comma-joined serialization of array elements. -/
def serializeJsArr : JSONArr → String
  | .nil => ""
  | .cons h .nil => serializeJsValue h
  | .cons h (.cons h2 t) => serializeJsValue h ++ ", " ++ serializeJsArr (.cons h2 t)

/-- Comma-joined serialization of object fields. -/
def serializeJsObj : JSONObj → String
  | .nil => ""
  | .cons k v .nil => k ++ ": " ++ serializeJsValue v
  | .cons k v (.cons k2 v2 t) =>
    k ++ ": " ++ serializeJsValue v ++ ", " ++ serializeJsObj (.cons k2 v2 t)

end

/-- Argument of a GraphQL field (`GraphQLFieldArg` in `src/graphql.ts`). -/
structure GraphQLFieldArg where
  name : String
  value : JSONValue

/-- Top-level GraphQL field with its arguments (`GraphQLField`). -/
structure GraphQLField where
  name : String
  args : List GraphQLFieldArg

/-- Parsed GraphQL request: top-level fields grouped by operation type
(`ParsedGraphQLRequest`). -/
structure ParsedGraphQLRequest where
  queries : List GraphQLField
  mutations : List GraphQLField

/-- Comma-joined `name: value` rendering of an argument list
(the `argsStr` computation inside `formatGraphQLField`). -/
def formatArgs : List GraphQLFieldArg → String
  | [] => ""
  | [a] => a.name ++ ": " ++ serializeJsValue a.value
  | a :: b :: t => a.name ++ ": " ++ serializeJsValue a.value ++ ", " ++ formatArgs (b :: t)

/-- Model of `formatGraphQLField`: `name` without arguments, otherwise
`name(arg1: v1, arg2: v2)`. -/
def formatGraphQLField (field : GraphQLField) : String :=
  if field.args.isEmpty then field.name
  else field.name ++ "(" ++ formatArgs field.args ++ ")"

/-- Model of `getGraphQLRequestKeys`: one `GRAPHQL query <field>` key per
query field followed by one `GRAPHQL mutation <field>` key per mutation
field. -/
def getGraphQLRequestKeys (parsed : ParsedGraphQLRequest) : List String :=
  parsed.queries.map (fun f => "GRAPHQL query " ++ formatGraphQLField f) ++
    parsed.mutations.map (fun f => "GRAPHQL mutation " ++ formatGraphQLField f)

/-! ## Config module (`src/config.ts`, the unnamed newer revision) -/

/-- Per-secret configuration (`SecretConfig`): the fake secret, the
environment variable naming the real one, and the two pattern lists. -/
structure SecretConfig where
  secret : String
  secretEnvVarName : String
  grants : List String
  rejections : List String
deriving DecidableEq

/-- Per-host configuration (`HostConfig`); the OpenAPI source is irrelevant
to the claims and omitted (only the parsed path index matters, kept
separately as in the source's `specCache`). -/
structure HostConfig where
  secrets : List SecretConfig
  graphqlEndpoints : Option (List String)
deriving DecidableEq

/-- The loaded config document: hostname-keyed (`ProxyConfig`).  JS object
keys are unique; modelled as an association list probed by first match. -/
abbrev ProxyConfig : Type := List (String × HostConfig)

/-- Association-list lookup (models JS object / Map indexing). -/
def lookupAssoc {α : Type} (l : List (String × α)) (k : String) : Option α :=
  (l.find? (fun kv => kv.1 = k)).map (fun kv => kv.2)

/-- Model of `getRequestKey`: `METHOD` + space + the path with its query
string stripped. -/
def getRequestKey (method path : String) : String :=
  method ++ " " ++ stripQuery path

/-- Model of `isGraphQLEndpoint`: the host's configured endpoint list
contains the path without its query string. -/
def isGraphQLEndpoint (config : ProxyConfig) (host path : String) : Bool :=
  match lookupAssoc config host with
  | none => false
  | some hc =>
    match hc.graphqlEndpoints with
    | none => false
    | some eps => eps.contains (stripQuery path)

/-- Model of Bun.Glob path matching as the spec (§4.1) describes the
supported pattern surface: matching is glob-style against `/`-delimited
segments, where a `*` segment matches exactly one segment (any characters
other than a slash) and any other segment matches literally.  The wider
Bun glob syntax (`?`, classes, braces) is not part of the documented
pattern language and is outside the model. -/
def globSegsMatch : List String → List String → Bool
  | [], [] => true
  | p :: ps, k :: ks => (p = "*" || p = k) && globSegsMatch ps ks
  | _, _ => false

/-- Glob match of a path pattern against a path, segment-wise. -/
def globMatch (pat str : String) : Bool :=
  globSegsMatch (strSplitOn '/' pat) (strSplitOn '/' str)

/-- Model of `matchesPattern` in `src/config.ts`: exact equality fast path;
split both strings at their first space; methods must match verbatim;
`METHOD *` matches everything; `GRAPHQL` patterns dispatch on operation
type and fall through to AST field matching; other methods match the path
by glob. -/
def matchesPattern (pattern requestKey : String) : Except String Bool :=
  if pattern = requestKey then .ok true
  else
    match splitFirstStr ' ' pattern, splitFirstStr ' ' requestKey with
    | some pSplit, some rSplit =>
      if pSplit.1 ≠ rSplit.1 then .ok false
      else if pSplit.2 = "*" then .ok true
      else if pSplit.1 = "GRAPHQL" then
        if pSplit.2 = "query *" then .ok (strStartsWith rSplit.2 "query ")
        else if pSplit.2 = "mutation *" then .ok (strStartsWith rSplit.2 "mutation ")
        else
          match splitFirstStr ' ' pSplit.2, splitFirstStr ' ' rSplit.2 with
          | some pField, some rField =>
            if pField.1 ≠ rField.1 then .ok false
            else matchesGraphQLFieldPattern pField.2 rField.2
          | _, _ => .ok false
      else .ok (globMatch pSplit.2 rSplit.2)
    | _, _ => .ok false

/-- First pattern in the list matching the key (`Array.prototype.find`
over `matchesPattern`); an exception thrown while matching propagates. -/
def findFirstMatch (patterns : List String) (requestKey : String) :
    Except String (Option String) :=
  match patterns with
  | [] => .ok none
  | p :: ps =>
    match matchesPattern p requestKey with
    | .error e => .error e
    | .ok true => .ok (some p)
    | .ok false => findFirstMatch ps requestKey

/-- Model of `findMatchingGrant`. -/
def findMatchingGrant (secretC : SecretConfig) (requestKey : String) :
    Except String (Option String) :=
  findFirstMatch secretC.grants requestKey

/-- Model of `findMatchingRejection`. -/
def findMatchingRejection (secretC : SecretConfig) (requestKey : String) :
    Except String (Option String) :=
  findFirstMatch secretC.rejections requestKey

/-- Model of `addGrant`: a no-op when the pattern is already present,
otherwise append and persist.  The boolean records whether `saveConfig`
was invoked (a persistence write happened). -/
def addGrant (secretC : SecretConfig) (requestKey : String) :
    SecretConfig × Bool :=
  if secretC.grants.contains requestKey then (secretC, false)
  else ({ secretC with grants := secretC.grants ++ [requestKey] }, true)

/-- Model of `addRejection`, symmetric to `addGrant`. -/
def addRejection (secretC : SecretConfig) (requestKey : String) :
    SecretConfig × Bool :=
  if secretC.rejections.contains requestKey then (secretC, false)
  else ({ secretC with rejections := secretC.rejections ++ [requestKey] }, true)

/-- Model of `getRealSecret`: read the process environment by name. -/
def getRealSecret (env : List (String × String)) (secretC : SecretConfig) :
    Option String :=
  lookupAssoc env secretC.secretEnvVarName

/-- Model of `findSecretConfigFromHeaders`: look up the host's config and
return the first `SecretConfig` (in list order) whose fake secret occurs as
a substring of some header value. -/
def findSecretConfigFromHeaders (config : ProxyConfig) (host : String)
    (headers : List (String × String)) : Option SecretConfig :=
  match lookupAssoc config host with
  | none => none
  | some hc =>
    hc.secrets.find? (fun sc => headers.any (fun kv => strContains kv.2 sc.secret))

/-- Model of `substituteSecretInHeaders`: a new header set with identical
keys whose values have every occurrence of the fake secret replaced by the
real one.  Headers are in canonical form (unique lower-cased keys), so the
source's iterate-and-set loop is a pointwise map. -/
def substituteSecretInHeaders (headers : List (String × String))
    (fakeSecret realSecret : String) : List (String × String) :=
  headers.map (fun kv => (kv.1, replaceAll kv.2 fakeSecret realSecret))

/-! ## OpenAPI path template index (`src/openapi.ts`) -/

/-- One `/`-delimited segment of an indexed path (`PathSegment`). -/
structure PathSegment where
  value : String
  isParameter : Bool
deriving DecidableEq

/-- Indexed OpenAPI path (`OpenApiPath`). -/
structure OpenApiPath where
  template : String
  segments : List PathSegment
  methods : List String
deriving DecidableEq

/-- Candidate pattern shown to the operator (`PatternOption`). -/
structure PatternOption where
  pattern : String
  description : String
deriving DecidableEq

/-- Split a path on `/` and keep only non-empty segments (the
`split("/").filter((s) => s.length > 0)` idiom of `src/openapi.ts`). -/
def pathSegsOf (path : String) : List String :=
  (strSplitOn '/' path).filter (fun s => s ≠ "")

/-- Model of `parsePathTemplate`: non-empty segments, flagged as parameters
when braced like `\x7bname\x7d`. -/
def parsePathTemplate (template : String) : List PathSegment :=
  (pathSegsOf template).map
    (fun seg => ⟨seg, strStartsWith seg lbraceStr && strEndsWith seg rbraceStr⟩)

/-- Non-parameter template segments must equal the concrete segments,
position by position, with equal counts (the inner loop of
`matchPathToTemplate`). -/
def templateSegsAgree : List PathSegment → List String → Bool
  | [], [] => true
  | t :: ts, a :: rest => (t.isParameter || t.value == a) && templateSegsAgree ts rest
  | _, _ => false

/-- Does an indexed path qualify for a lookup (`matchPathToTemplate` body):
its method set contains the uppercased method, its segment count equals the
concrete segment count, and non-parameter segments agree. -/
def apiPathQualifies (apiPath : OpenApiPath) (upperMethod : String)
    (actualSegments : List String) : Bool :=
  apiPath.methods.contains upperMethod &&
    apiPath.segments.length == actualSegments.length &&
    templateSegsAgree apiPath.segments actualSegments

/-- Model of `matchPathToTemplate`: look up the host's indexed paths
(`specCache`), strip the query, split into non-empty segments, and return
the first indexed path, in load order, that qualifies. -/
def matchPathToTemplate (cache : List (String × List OpenApiPath))
    (host method path : String) : Option OpenApiPath :=
  match lookupAssoc cache host with
  | none => none
  | some paths =>
    let actualSegments := pathSegsOf (stripQuery path)
    let upperMethod := strToUpper method
    paths.find? (fun ap => apiPathQualifies ap upperMethod actualSegments)

/-- Overwrite the listed positions with `*` (the
`patternSegments[pos] = "*"` loop); an out-of-range position leaves the
list unchanged, which cannot arise at the proxy's call site because the
matched template has exactly as many segments as the path. -/
def setStars (segs : List String) (positions : List Nat) : List String :=
  positions.foldl (fun acc pos => acc.set pos "*") segs

/-- The candidate pattern for loop index `i` of `generatePatternOptions`:
parameter positions `i` and rightwards are wildcarded, the path is
reassembled with a leading slash. -/
def wildcardPattern (method : String) (actualSegments : List String)
    (paramPositions : List Nat) (i : Nat) : String :=
  method ++ " " ++ ("/" ++ strJoinWith '/' (setStars actualSegments (paramPositions.drop i)))

/-- The wildcard-generation loop of `generatePatternOptions`: indices are
visited from `paramPositions.length - 1` down to `0`; a candidate equal to
one already used is skipped. -/
def wildcardLoop (method : String) (actualSegments : List String)
    (paramPositions : List Nat) : List Nat → List String → List PatternOption
  | [], _ => []
  | i :: rest, used =>
    let pat := wildcardPattern method actualSegments paramPositions i
    if used.contains pat then wildcardLoop method actualSegments paramPositions rest used
    else ⟨pat, pat⟩ :: wildcardLoop method actualSegments paramPositions rest (pat :: used)

/-- Indices of the parameter segments of a template, in ascending order. -/
def paramPositionsOf (segs : List PathSegment) : List Nat :=
  segs.enum.filterMap (fun p => if p.2.isParameter then some p.1 else none)

/-- Model of `generatePatternOptions`: the exact pattern first, then
(when a template is available) progressively wider wildcard patterns from
right to left with duplicates skipped, and finally the catch-all
`METHOD *`. -/
def generatePatternOptions (method actualPath : String)
    (template : Option OpenApiPath) : List PatternOption :=
  let pathWithoutQuery := stripQuery actualPath
  let exact := method ++ " " ++ pathWithoutQuery
  let mid :=
    match template with
    | none => []
    | some t =>
      let actualSegments := pathSegsOf pathWithoutQuery
      let paramPositions := paramPositionsOf t.segments
      wildcardLoop method actualSegments paramPositions
        (List.range paramPositions.length).reverse [exact]
  ⟨exact, exact⟩ :: mid ++ [⟨method ++ " *", method ++ " *"⟩]

/-! ## Proxy request handling (`src/proxy.ts`, unnamed newer revision)

The newer revision of the proxy (with per-field GraphQL grant lookup and a
`generateGraphQLFieldPatternOptions` suggestion import) is modelled.  The
external pieces — upstream fetch, the approval transport, the GraphQL body
parsers, and the missing-from-source GraphQL suggestion generator — are
abstracted as parameters; everything else follows the source control flow.
The handler output records the decided action, the final `SecretConfig`
and the list of approval-transport invocations made. -/

/-- URL components relevant to the proxy (`url.host`, `url.pathname`,
`url.search`; `search` carries its leading question mark when non-empty,
as `URL.search` does). -/
structure UrlParts where
  host : String
  pathname : String
  search : String
deriving DecidableEq

/-- An incoming request before `loadRequest` runs. -/
structure RequestIn where
  url : UrlParts
  method : String
  headers : List (String × String)
  bodyBytes : String
deriving DecidableEq

/-- The normalized request (`RequestLoaded`). -/
structure RequestLoaded where
  url : UrlParts
  method : String
  headers : List (String × String)
  body : Option String
deriving DecidableEq

/-- Model of `loadRequest`: the URL host is overwritten with the `Host`
header when that header is present and non-empty (JS `||` treats the empty
string as falsy); the `Host` header is removed; the body is read for
methods other than GET and HEAD. -/
def loadRequest (req : RequestIn) : RequestLoaded :=
  let host :=
    match lookupAssoc req.headers "host" with
    | some h => if h = "" then req.url.host else h
    | none => req.url.host
  let headers := req.headers.filter (fun kv => kv.1 ≠ "host")
  let body :=
    if req.method ≠ "GET" ∧ req.method ≠ "HEAD" then some req.bodyBytes else none
  ⟨⟨host, req.url.pathname, req.url.search⟩, req.method, headers, body⟩

/-- Decision the handler reaches: forward a request upstream (with the
given final components) or answer the guest directly. -/
inductive Action where
  | forward (url : UrlParts) (method : String) (headers : List (String × String))
      (body : Option String)
  | respond (status : Nat) (body : String)
deriving DecidableEq

/-- Approval decision (`ApprovalResponse`). -/
inductive ApprovalResponse where
  | allowOnce
  | allowForever (pattern : String)
  | rejectOnce
  | rejectForever (pattern : String)
deriving DecidableEq

/-- One invocation of the approval transport, as observed by the model. -/
structure ApprovalCall where
  host : String
  method : String
  path : String
  options : List PatternOption
deriving DecidableEq

/-- The approval transport (`RequestApprovalFn`): may resolve to a decision
or throw (timeout or transport error). -/
def ApprovalFn : Type :=
  String → String → String → List PatternOption → Except String ApprovalResponse

/-- The GraphQL suggestion generator `generateGraphQLFieldPatternOptions`
imported by the proxy; its implementation is not part of the source tree,
so it stays an abstract parameter (it only affects the single-field
branch). -/
def GqlSuggest : Type := String → GraphQLField → List PatternOption

/-- Result of a mediation handler: the action, the final secret config
(after any `addGrant` / `addRejection`), and the approval calls made. -/
structure HandlerResult where
  action : Action
  secretC : SecretConfig
  calls : List ApprovalCall
deriving DecidableEq

/-- Model of `forwardRequest`: pass the loaded request upstream as-is. -/
def forwardRequest (req : RequestLoaded) : Action :=
  .forward req.url req.method req.headers req.body

/-- Model of `forwardRequestWithSecretSubstitution`: resolve the real
secret from the environment (an unset or empty value is falsy in JS and
yields the 500 response), then forward with substituted headers. -/
def forwardRequestWithSecretSubstitution (env : List (String × String))
    (req : RequestLoaded) (secretConfig : SecretConfig) : Action :=
  match getRealSecret env secretConfig with
  | none => .respond 500 "Internal Server Error - No real secret configured"
  | some real =>
    if real = "" then .respond 500 "Internal Server Error - No real secret configured"
    else
      .forward req.url req.method
        (substituteSecretInHeaders req.headers secretConfig.secret real) req.body

/-- Model of `handleHttpRequest`: rejection lookup, then grant lookup, then
approval via the transport; thrown matching errors propagate (the source
has no try/catch around the lookups), transport errors map to the 403
timeout response. -/
def handleHttpRequest (cache : List (String × List OpenApiPath))
    (env : List (String × String)) (approvalFn : Option ApprovalFn)
    (req : RequestLoaded) (secretConfig : SecretConfig) (path : String) :
    Except String HandlerResult :=
  let requestKey := getRequestKey req.method path
  match findMatchingRejection secretConfig requestKey with
  | .error e => .error e
  | .ok (some _) =>
    .ok ⟨.respond 403 "Forbidden - Request permanently rejected", secretConfig, []⟩
  | .ok none =>
    match findMatchingGrant secretConfig requestKey with
    | .error e => .error e
    | .ok (some _) =>
      .ok ⟨forwardRequestWithSecretSubstitution env req secretConfig, secretConfig, []⟩
    | .ok none =>
      match approvalFn with
      | none => .ok ⟨.respond 403 "Forbidden - No approval handler", secretConfig, []⟩
      | some f =>
        let template := matchPathToTemplate cache req.url.host req.method path
        let patternOptions := generatePatternOptions req.method path template
        let call : ApprovalCall := ⟨req.url.host, req.method, path, patternOptions⟩
        match f req.url.host req.method path patternOptions with
        | .error _ =>
          .ok ⟨.respond 403 "Forbidden - Approval timeout", secretConfig, [call]⟩
        | .ok .allowOnce =>
          .ok ⟨forwardRequestWithSecretSubstitution env req secretConfig, secretConfig, [call]⟩
        | .ok (.allowForever p) =>
          let sc2 := (addGrant secretConfig p).1
          .ok ⟨forwardRequestWithSecretSubstitution env req sc2, sc2, [call]⟩
        | .ok .rejectOnce =>
          .ok ⟨.respond 403 "Forbidden - Request rejected", secretConfig, [call]⟩
        | .ok (.rejectForever p) =>
          let sc2 := (addRejection secretConfig p).1
          .ok ⟨.respond 403 "Forbidden - Request permanently rejected", sc2, [call]⟩

/-- A GraphQL field awaiting approval, with its request key and operation
type (the `needsApproval` entries). -/
structure NeedsApproval where
  key : String
  opType : String
  field : GraphQLField

/-- The rejection loop of `handleGraphQLRequest`: scan the keys in order;
the first matching rejection stops with `true`; a thrown matching error
propagates. -/
def rejectionScan (secretConfig : SecretConfig) : List String → Except String Bool
  | [] => .ok false
  | k :: ks =>
    match findMatchingRejection secretConfig k with
    | .error e => .error e
    | .ok (some _) => .ok true
    | .ok none => rejectionScan secretConfig ks

/-- The grant-classification loop of `handleGraphQLRequest` for one
operation type: each field's key is looked up among the grants; matches
accumulate as granted patterns, the rest as approval-needing entries. -/
def classifyFields (secretConfig : SecretConfig) (opType : String) :
    List GraphQLField → Except String (List String × List NeedsApproval)
  | [] => .ok ([], [])
  | f :: fs =>
    let key := "GRAPHQL " ++ opType ++ " " ++ formatGraphQLField f
    match findMatchingGrant secretConfig key with
    | .error e => .error e
    | .ok (some g) =>
      (classifyFields secretConfig opType fs).map (fun p => (g :: p.1, p.2))
    | .ok none =>
      (classifyFields secretConfig opType fs).map (fun p => (p.1, ⟨key, opType, f⟩ :: p.2))

/-- Granted patterns and approval-needing entries across the query fields
followed by the mutation fields, as `handleGraphQLRequest` accumulates
them. -/
def needsApprovalOf (secretConfig : SecretConfig) (parsed : ParsedGraphQLRequest) :
    Except String (List String × List NeedsApproval) := do
  let q ← classifyFields secretConfig "query" parsed.queries
  let m ← classifyFields secretConfig "mutation" parsed.mutations
  pure (q.1 ++ m.1, q.2 ++ m.2)

/-- The approval description: the keys needing approval with their
`GRAPHQL ` prefix dropped (JS `replace` of the first occurrence), joined
with semicolons. -/
def approvalDescriptionOf (needs : List NeedsApproval) : String :=
  String.intercalate "; " (needs.map (fun n => replaceFirst n.key "GRAPHQL " ""))

/-- Model of `handleGraphQLRequest` after body parsing: rejection scan over
every key, grant classification, forward when nothing needs approval, 403
without a transport, and otherwise a single approval-transport invocation
whose options are the per-field suggestions for exactly one pending field
and the lone exact-only `all` option for several. -/
def handleGraphQLRequestParsed (env : List (String × String))
    (approvalFn : Option ApprovalFn) (gqlSuggest : GqlSuggest)
    (req : RequestLoaded) (secretConfig : SecretConfig)
    (parsed : ParsedGraphQLRequest) : Except String HandlerResult :=
  let keys := getGraphQLRequestKeys parsed
  match rejectionScan secretConfig keys with
  | .error e => .error e
  | .ok true =>
    .ok ⟨.respond 403 "Forbidden - Request permanently rejected", secretConfig, []⟩
  | .ok false =>
    match needsApprovalOf secretConfig parsed with
    | .error e => .error e
    | .ok classified =>
      let needs := classified.2
      if needs.isEmpty then
        .ok ⟨forwardRequestWithSecretSubstitution env req secretConfig, secretConfig, []⟩
      else
        match approvalFn with
        | none => .ok ⟨.respond 403 "Forbidden - No approval handler", secretConfig, []⟩
        | some f =>
          let desc := approvalDescriptionOf needs
          let patternOptions :=
            match needs with
            | [n] => gqlSuggest n.opType n.field
            | _ => [⟨"all", "Exact: " ++ desc⟩]
          let call : ApprovalCall := ⟨req.url.host, "GRAPHQL", desc, patternOptions⟩
          match f req.url.host "GRAPHQL" desc patternOptions with
          | .error _ =>
            .ok ⟨.respond 403 "Forbidden - Approval timeout", secretConfig, [call]⟩
          | .ok .allowOnce =>
            .ok ⟨forwardRequestWithSecretSubstitution env req secretConfig, secretConfig,
              [call]⟩
          | .ok (.allowForever p) =>
            let sc2 :=
              match needs with
              | [_] => (addGrant secretConfig p).1
              | _ => needs.foldl (fun acc n => (addGrant acc n.key).1) secretConfig
            .ok ⟨forwardRequestWithSecretSubstitution env req sc2, sc2, [call]⟩
          | .ok .rejectOnce =>
            .ok ⟨.respond 403 "Forbidden - Request rejected", secretConfig, [call]⟩
          | .ok (.rejectForever p) =>
            let sc2 :=
              match needs with
              | [_] => (addRejection secretConfig p).1
              | _ => needs.foldl (fun acc n => (addRejection acc n.key).1) secretConfig
            .ok ⟨.respond 403 "Forbidden - Request permanently rejected", sc2, [call]⟩

/-- Model of `handleRequest`: load the request, pass it through untouched
when no fake secret is detected, otherwise dispatch to the GraphQL or HTTP
mediation flow.  The two GraphQL body parsers (search-parameter and body
variants, both thin wrappers over the external graphql library) are
abstract parameters. -/
def handleRequest (config : ProxyConfig) (cache : List (String × List OpenApiPath))
    (env : List (String × String)) (approvalFn : Option ApprovalFn)
    (gqlSuggest : GqlSuggest)
    (parseFromParams : String → Option ParsedGraphQLRequest)
    (parseBody : String → Option ParsedGraphQLRequest) (reqIn : RequestIn) :
    Except String (Action × List ApprovalCall) :=
  let req := loadRequest reqIn
  match findSecretConfigFromHeaders config req.url.host req.headers with
  | none => .ok (forwardRequest req, [])
  | some secretConfig =>
    let path := req.url.pathname ++ req.url.search
    if isGraphQLEndpoint config req.url.host req.url.pathname then
      let parsed :=
        if req.method = "GET" then parseFromParams req.url.search
        else
          match req.body with
          | some b => parseBody b
          | none => none
      match parsed with
      | none => .ok (.respond 400 "Bad Request - Invalid GraphQL request", [])
      | some p =>
        (handleGraphQLRequestParsed env approvalFn gqlSuggest req secretConfig p).map
          (fun r => (r.action, r.calls))
    else
      (handleHttpRequest cache env approvalFn req secretConfig path).map
        (fun r => (r.action, r.calls))

/-- The qualification condition of the OpenAPI lookup, written as the claim
states it: the method set contains the uppercased method, the segment
counts agree, and every non-parameter template segment equals the
corresponding concrete segment. -/
abbrev OpenApiKeep (method path : String) (ap : OpenApiPath) : Prop :=
  ap.methods.contains (strToUpper method) = true ∧
  ap.segments.length = (pathSegsOf (stripQuery path)).length ∧
  ∀ i, (hi : i < ap.segments.length) →
    (ap.segments.get ⟨i, hi⟩).isParameter = false →
    (pathSegsOf (stripQuery path))[i]? = some (ap.segments.get ⟨i, hi⟩).value

/-- The shape every HTTP suggestion shares: the method, a space, and the
reassembled path with the listed positions wildcarded. -/
def overlayPattern (method : String) (segs : List String) (positions : List Nat) :
    String :=
  method ++ " " ++ ("/" ++ strJoinWith '/' (setStars segs positions))

/-! ## Lemmas about the string-replacement model -/

theorem isPrefixL_nil_left (s : List Char) : isPrefixL [] s = true := by
  cases s <;> rfl

theorem isPrefixL_cons_iff (x : Char) (xs : List Char) (c : Char) (cs : List Char) :
    isPrefixL (x :: xs) (c :: cs) = true ↔ x = c ∧ isPrefixL xs cs = true := by
  simp [isPrefixL]

theorem eq_nil_of_isPrefixL_nil {p : List Char} (h : isPrefixL p [] = true) : p = [] := by
  cases p with
  | nil => rfl
  | cons x xs => simp [isPrefixL] at h

theorem containsL_nil_of_ne_nil {fake : List Char} (hf : fake ≠ []) :
    containsL fake [] = false := by
  cases fake with
  | nil => exact absurd rfl hf
  | cons f fs => rfl

/-- Prepending characters that occur nowhere in the needle cannot create an
occurrence of the needle. -/
theorem containsL_append_left_free {fake : List Char} (a R : List Char)
    (hf : fake ≠ []) (hd : ∀ c ∈ fake, c ∉ a) (hR : containsL fake R = false) :
    containsL fake (a ++ R) = false := by
  induction a with
  | nil => simpa using hR
  | cons x a2 ih =>
    have hd2 : ∀ c ∈ fake, c ∉ a2 := fun c hc hmem => hd c hc (List.mem_cons_of_mem _ hmem)
    have hx : ∀ c ∈ fake, c ≠ x := fun c hc he => hd c hc (he ▸ List.mem_cons_self x a2)
    have htail : containsL fake (a2 ++ R) = false := ih hd2
    have hhead : isPrefixL fake (x :: (a2 ++ R)) = false := by
      cases fake with
      | nil => exact absurd rfl hf
      | cons f fs =>
        have : f ≠ x := hx f (List.mem_cons_self f fs)
        simp [isPrefixL, this]
    simp [containsL, hhead, htail]

/-- Every needle-shaped prefix of a replacement result that avoids the
characters of the replacement string is already a prefix of the source. -/
theorem isPrefixL_replaceAllFuel {fake real : List Char} (hr : real ≠ []) :
    ∀ (n : Nat) (s p : List Char), s.length ≤ n → (∀ c ∈ p, c ∉ real) →
      isPrefixL p (replaceAllLiteralFuel fake real n s) = true → isPrefixL p s = true
  | 0, s, p, hle, _, hp => by
    have hs : s = [] := List.length_eq_zero.mp (Nat.le_zero.mp hle)
    subst hs
    simpa [replaceAllLiteralFuel] using hp
  | n + 1, [], p, _, _, hp => by
    simpa [replaceAllLiteralFuel] using hp
  | n + 1, c :: rest, p, hle, hfree, hp => by
    by_cases hcond : fake ≠ [] ∧ isPrefixL fake (c :: rest) = true
    · rw [replaceAllLiteralFuel, if_pos hcond] at hp
      cases p with
      | nil => exact isPrefixL_nil_left _
      | cons q p2 =>
        cases real with
        | nil => exact absurd rfl hr
        | cons r real2 =>
          rw [List.cons_append, isPrefixL_cons_iff] at hp
          exact absurd (hp.1 ▸ List.mem_cons_self r real2)
            (hfree q (List.mem_cons_self q p2))
    · rw [replaceAllLiteralFuel, if_neg hcond] at hp
      cases p with
      | nil => exact isPrefixL_nil_left _
      | cons q p2 =>
        rw [isPrefixL_cons_iff] at hp
        have hfree2 : ∀ ch ∈ p2, ch ∉ real :=
          fun ch hc => hfree ch (List.mem_cons_of_mem _ hc)
        have hrest : rest.length ≤ n := by simpa using hle
        have := isPrefixL_replaceAllFuel hr n rest p2 hrest hfree2 hp.2
        rw [isPrefixL_cons_iff]
        exact ⟨hp.1, this⟩

/-- Core of the complete-substitution analysis: when the fake secret is
nonempty and shares no character with the nonempty real secret, the result
of the replacement scan contains no occurrence of the fake secret. -/
theorem containsL_replaceAllFuel_false {fake real : List Char}
    (hf : fake ≠ []) (hr : real ≠ []) (hd : ∀ c ∈ fake, c ∉ real) :
    ∀ (n : Nat) (s : List Char), s.length ≤ n →
      containsL fake (replaceAllLiteralFuel fake real n s) = false
  | 0, s, hle => by
    have hs : s = [] := List.length_eq_zero.mp (Nat.le_zero.mp hle)
    subst hs
    simpa [replaceAllLiteralFuel] using containsL_nil_of_ne_nil hf
  | n + 1, [], _ => by
    simpa [replaceAllLiteralFuel] using containsL_nil_of_ne_nil hf
  | n + 1, c :: rest, hle => by
    have hrest : rest.length ≤ n := by simpa using hle
    by_cases hcond : fake ≠ [] ∧ isPrefixL fake (c :: rest) = true
    · rw [replaceAllLiteralFuel, if_pos hcond]
      have hdropLen : (rest.drop (fake.length - 1)).length ≤ n :=
        le_trans (by simp) hrest
      exact containsL_append_left_free real _ hf hd
        (containsL_replaceAllFuel_false hf hr hd n _ hdropLen)
    · rw [replaceAllLiteralFuel, if_neg hcond]
      have htail : containsL fake (replaceAllLiteralFuel fake real n rest) = false :=
        containsL_replaceAllFuel_false hf hr hd n rest hrest
      have hhead : isPrefixL fake (c :: replaceAllLiteralFuel fake real n rest) = false := by
        cases fake with
        | nil => exact absurd rfl hf
        | cons f fs =>
          cases hpre : isPrefixL (f :: fs) (c :: replaceAllLiteralFuel (f :: fs) real n rest) with
          | false => rfl
          | true =>
            rw [isPrefixL_cons_iff] at hpre
            have hfree : ∀ ch ∈ fs, ch ∉ real :=
              fun ch hc => hd ch (List.mem_cons_of_mem _ hc)
            have h2 : isPrefixL fs rest = true :=
              isPrefixL_replaceAllFuel hr n rest fs hrest hfree hpre.2
            have hws : isPrefixL (f :: fs) (c :: rest) = true :=
              (isPrefixL_cons_iff _ _ _ _).mpr ⟨hpre.1, h2⟩
            exact absurd ⟨hf, hws⟩ hcond
      simp [containsL, hhead, htail]

/-- Nonempty strings have nonempty character lists. -/
theorem toList_ne_nil_of_ne_empty {s : String} (h : s ≠ "") : s.toList ≠ [] := by
  intro hnil
  apply h
  cases s with
  | mk data => simpa [String.toList] using congrArg String.mk hnil

/-- On a template free of the dollar character, GetSubstitution is the
identity: every character is copied literally. -/
theorem getSubstitution_no_dollar (matched pre suf : List Char) :
    ∀ tmpl : List Char, '$' ∉ tmpl → getSubstitution matched pre suf tmpl = tmpl
  | [], _ => rfl
  | [c], _ => by rw [getSubstitution]
  | c :: d :: rest2, h => by
    have hc : ¬ c = '$' := fun he => h (he ▸ List.mem_cons_self _ _)
    have hrest : '$' ∉ d :: rest2 := fun hm => h (List.mem_cons_of_mem _ hm)
    rw [getSubstitution, if_neg hc,
      getSubstitution_no_dollar matched pre suf (d :: rest2) hrest]

/-- When the replacement contains no dollar character, the faithful
replacement scan inserts it literally at every match, so it coincides with
the literal scan (for any prefix accumulator). -/
theorem replaceAllFuel_no_dollar {fake real : List Char} (hdol : '$' ∉ real) :
    ∀ (n : Nat) (pre s : List Char),
      replaceAllFuel fake real n pre s = replaceAllLiteralFuel fake real n s
  | 0, _, _ => rfl
  | _ + 1, _, [] => rfl
  | n + 1, pre, c :: rest => by
    by_cases hcond : fake ≠ [] ∧ isPrefixL fake (c :: rest) = true
    · rw [replaceAllFuel, replaceAllLiteralFuel, if_pos hcond, if_pos hcond,
        getSubstitution_no_dollar fake pre (rest.drop (fake.length - 1)) real hdol,
        replaceAllFuel_no_dollar hdol n (pre ++ fake) (rest.drop (fake.length - 1))]
    · rw [replaceAllFuel, replaceAllLiteralFuel, if_neg hcond, if_neg hcond,
        replaceAllFuel_no_dollar hdol n (pre ++ [c]) rest]

/-- String-level form: a `replaceAll` result holds no occurrence of the
fake secret when fake and real are nonempty, the real secret contains no
dollar character, and fake and real share no character. -/
theorem strContains_replaceAll_false (s fake real : String) (hf : fake ≠ "")
    (hr : real ≠ "") (hdol : '$' ∉ real.toList)
    (hd : ∀ c ∈ fake.toList, c ∉ real.toList) :
    strContains (replaceAll s fake real) fake = false := by
  rw [replaceAll, if_neg hf,
    replaceAllFuel_no_dollar hdol s.toList.length [] s.toList]
  exact containsL_replaceAllFuel_false (toList_ne_nil_of_ne_empty hf)
    (toList_ne_nil_of_ne_empty hr) hd s.toList.length s.toList (le_refl _)

/-! ## Claim C1 -/

/-- C1 (corrected).  For every request forwarded with secret substitution,
each forwarded header value is the corresponding input header value with
every occurrence (left to right, non-overlapping, as JS `replaceAll`) of
the configured fake secret replaced by the GetSubstitution expansion of
the real secret resolved from the environment (`$$`, `$&`, the dollar
backquote and dollar apostrophe forms are interpreted in the replacement).
The further claim that afterwards no header value contains the fake secret
does not hold unconditionally (see the counterexample); it does hold
whenever the fake secret is nonempty, the real secret contains no dollar
character, and the two share no character. -/
theorem forward_substitution_replaces_every_occurrence
    (env : List (String × String)) (req : RequestLoaded)
    (secretConfig : SecretConfig) (real : String)
    (hreal : getRealSecret env secretConfig = some real) (hne : real ≠ "") :
    forwardRequestWithSecretSubstitution env req secretConfig =
      Action.forward req.url req.method
        (req.headers.map (fun kv => (kv.1, replaceAll kv.2 secretConfig.secret real)))
        req.body ∧
    (secretConfig.secret ≠ "" →
      '$' ∉ real.toList →
      (∀ c ∈ secretConfig.secret.toList, c ∉ real.toList) →
      ∀ kv ∈ substituteSecretInHeaders req.headers secretConfig.secret real,
        strContains kv.2 secretConfig.secret = false) := by
  constructor
  · simp [forwardRequestWithSecretSubstitution, hreal, hne, substituteSecretInHeaders]
  · intro hfake hdol hdisj kv hkv
    obtain ⟨⟨k, v⟩, _, rfl⟩ := List.mem_map.mp hkv
    exact strContains_replaceAll_false v secretConfig.secret real hfake hne hdol hdisj

/-- C1 witness: with fake `XX`, real `yy` and header value `aXXb`, the
forwarded header is the replacement result and holds no occurrence of the
fake secret. -/
theorem forward_substitution_replaces_every_occurrence_witness :
    forwardRequestWithSecretSubstitution [("T", "yy")]
        ⟨⟨"h", "/", ""⟩, "GET", [("authorization", "aXXb")], none⟩
        ⟨"XX", "T", [], []⟩ =
      Action.forward ⟨"h", "/", ""⟩ "GET"
        [("authorization", replaceAll "aXXb" "XX" "yy")] none ∧
    strContains (replaceAll "aXXb" "XX" "yy") "XX" = false := by
  have h := forward_substitution_replaces_every_occurrence [("T", "yy")]
    ⟨⟨"h", "/", ""⟩, "GET", [("authorization", "aXXb")], none⟩
    ⟨"XX", "T", [], []⟩ "yy" (by decide) (by decide)
  exact ⟨h.1, h.2 (by decide) (by decide) (by decide)
    ("authorization", replaceAll "aXXb" "XX" "yy") (by decide)⟩

/-- C1 counterexample: two independent failures of the unconditional
residual claim.  First, fake `ab`, real `a`, header value `abb`: the
forwarded value is `ab`, which still contains the fake secret (a junction
of replacement output and residual text recreates it).  Second, fake `XX`,
real `$&`: GetSubstitution expands `$&` to the matched text, so the value
`aXXb` is forwarded unchanged and still contains the fake secret, although
fake and real share no character. -/
theorem forward_substitution_can_retain_fake_secret :
    (forwardRequestWithSecretSubstitution [("TOK", "a")]
        ⟨⟨"h", "/", ""⟩, "GET", [("authorization", "abb")], none⟩
        ⟨"ab", "TOK", [], []⟩ =
      Action.forward ⟨"h", "/", ""⟩ "GET" [("authorization", "ab")] none ∧
    strContains "ab" "ab" = true) ∧
    (forwardRequestWithSecretSubstitution [("TOK", "$&")]
        ⟨⟨"h", "/", ""⟩, "GET", [("authorization", "aXXb")], none⟩
        ⟨"XX", "TOK", [], []⟩ =
      Action.forward ⟨"h", "/", ""⟩ "GET" [("authorization", "aXXb")] none ∧
    strContains "aXXb" "XX" = true ∧
    (∀ c ∈ ("XX" : String).toList, c ∉ ("$&" : String).toList)) :=
  ⟨⟨by decide, by decide⟩, by decide, by decide, by decide⟩

/-! ## Claim C2 -/

/-- Secret detection finds nothing when no configured fake secret occurs
in any header value. -/
theorem findSecretConfig_none_of_clean (config : ProxyConfig) (host : String)
    (headers : List (String × String))
    (h : ∀ p ∈ config, ∀ sc ∈ p.2.secrets, ∀ kv ∈ headers,
      strContains kv.2 sc.secret = false) :
    findSecretConfigFromHeaders config host headers = none := by
  unfold findSecretConfigFromHeaders lookupAssoc
  cases hfind : List.find? (fun kv => kv.1 = host) config with
  | none => rfl
  | some p =>
    have hp : p ∈ config := List.mem_of_find?_eq_some hfind
    simp only [Option.map_some']
    apply List.find?_eq_none.mpr
    intro sc hsc
    simp only [List.any_eq_true, not_exists, not_and, Bool.not_eq_true]
    intro kv hkv
    exact h p hp sc hsc kv hkv

/-- C2 (corrected).  A request whose header values contain no configured
fake secret is forwarded without mediation: same method, same header
values with the `Host` header absent, same body (read for methods other
than GET and HEAD), and the input URL whose host component is overwritten
by the `Host` header value whenever that header is present and non-empty.
The original claim's "same URL" fails when the `Host` header differs from
the URL host (see the counterexample). -/
theorem clean_request_forwarded_untouched (config : ProxyConfig)
    (cache : List (String × List OpenApiPath)) (env : List (String × String))
    (approvalFn : Option ApprovalFn) (gqlSuggest : GqlSuggest)
    (parseFromParams parseBody : String → Option ParsedGraphQLRequest)
    (reqIn : RequestIn)
    (h : ∀ p ∈ config, ∀ sc ∈ p.2.secrets, ∀ kv ∈ reqIn.headers,
      strContains kv.2 sc.secret = false) :
    handleRequest config cache env approvalFn gqlSuggest parseFromParams
        parseBody reqIn =
      .ok (.forward
        ⟨(match lookupAssoc reqIn.headers "host" with
          | some hh => if hh = "" then reqIn.url.host else hh
          | none => reqIn.url.host),
          reqIn.url.pathname, reqIn.url.search⟩
        reqIn.method
        (reqIn.headers.filter (fun kv => kv.1 ≠ "host"))
        (if reqIn.method ≠ "GET" ∧ reqIn.method ≠ "HEAD" then some reqIn.bodyBytes
          else none),
        []) := by
  have hnone : findSecretConfigFromHeaders config (loadRequest reqIn).url.host
      (loadRequest reqIn).headers = none := by
    apply findSecretConfig_none_of_clean
    intro p hp sc hsc kv hkv
    exact h p hp sc hsc kv (List.mem_of_mem_filter hkv)
  simp only [handleRequest, hnone]
  simp only [forwardRequest, loadRequest]

/-- C2 witness: a secret-free GET request to a configured host is
forwarded with the Host header stripped and the URL host taken from it. -/
theorem clean_request_forwarded_untouched_witness :
    handleRequest [("h.test", ⟨[⟨"SEC", "T", [], []⟩], none⟩)] [] [] none
        (fun _ _ => []) (fun _ => none) (fun _ => none)
        ⟨⟨"h.test", "/a", "?q=1"⟩, "GET",
          [("accept", "json"), ("host", "h.test")], ""⟩ =
      .ok (.forward
        ⟨(match lookupAssoc [("accept", "json"), ("host", "h.test")] "host" with
          | some hh => if hh = "" then "h.test" else hh
          | none => "h.test"), "/a", "?q=1"⟩
        "GET"
        ([("accept", "json"), ("host", "h.test")].filter (fun kv => kv.1 ≠ "host"))
        (if ("GET" : String) ≠ "GET" ∧ ("GET" : String) ≠ "HEAD" then some ""
          else none),
        []) :=
  clean_request_forwarded_untouched [("h.test", ⟨[⟨"SEC", "T", [], []⟩], none⟩)]
    [] [] none (fun _ _ => []) (fun _ => none) (fun _ => none)
    ⟨⟨"h.test", "/a", "?q=1"⟩, "GET", [("accept", "json"), ("host", "h.test")], ""⟩
    (by decide)

/-- C2 counterexample: the claim's "same URL" fails.  A secret-free request
whose URL host is `127.0.0.1:443` but whose `Host` header says
`api.github.com` is forwarded to a URL whose host is `api.github.com`,
not the input URL. -/
theorem forwarded_url_host_differs_counterexample :
    handleRequest [("api.github.com", ⟨[], none⟩)] [] [] none
        (fun _ _ => []) (fun _ => none) (fun _ => none)
        ⟨⟨"127.0.0.1:443", "/x", ""⟩, "GET", [("host", "api.github.com")], ""⟩ =
      .ok (.forward ⟨"api.github.com", "/x", ""⟩ "GET" [] none, []) ∧
    ("api.github.com" : String) ≠ "127.0.0.1:443" :=
  ⟨by decide, by decide⟩

/-! ## Claim C3 -/

/-- When every pattern matches without throwing, the scan returns a value. -/
theorem findFirstMatch_isOk (patterns : List String) (key : String)
    (hok : ∀ p ∈ patterns, ∃ b, matchesPattern p key = .ok b) :
    ∃ r, findFirstMatch patterns key = .ok r := by
  induction patterns with
  | nil => exact ⟨none, rfl⟩
  | cons p ps ih =>
    obtain ⟨b, hb⟩ := hok p (List.mem_cons_self p ps)
    cases b with
    | true => exact ⟨some p, by simp [findFirstMatch, hb]⟩
    | false =>
      obtain ⟨r, hr⟩ := ih (fun q hq => hok q (List.mem_cons_of_mem _ hq))
      exact ⟨r, by simp [findFirstMatch, hb, hr]⟩

/-- A throw-free scan over a list containing a matching pattern returns a
matching pattern. -/
theorem findFirstMatch_some_of_match (patterns : List String) (key : String)
    (hok : ∀ p ∈ patterns, ∃ b, matchesPattern p key = .ok b)
    (hmatch : ∃ p ∈ patterns, matchesPattern p key = .ok true) :
    ∃ q, findFirstMatch patterns key = .ok (some q) := by
  induction patterns with
  | nil => simp at hmatch
  | cons p ps ih =>
    obtain ⟨b, hb⟩ := hok p (List.mem_cons_self p ps)
    cases b with
    | true => exact ⟨p, by simp [findFirstMatch, hb]⟩
    | false =>
      obtain ⟨q, hqmem, hq⟩ := hmatch
      rcases List.mem_cons.mp hqmem with rfl | hqtail
      · rw [hb] at hq
        exact absurd (Except.ok.inj hq) (by simp)
      · obtain ⟨q2, hq2⟩ := ih (fun r hr => hok r (List.mem_cons_of_mem _ hr))
          ⟨q, hqtail, hq⟩
        exact ⟨q2, by simp [findFirstMatch, hb, hq2]⟩

/-- A scan that comes back empty saw no matching pattern. -/
theorem findFirstMatch_none_no_match (patterns : List String) (key : String)
    (hnone : findFirstMatch patterns key = .ok none) :
    ∀ p ∈ patterns, matchesPattern p key ≠ .ok true := by
  induction patterns with
  | nil => simp
  | cons p ps ih =>
    intro q hq
    rcases List.mem_cons.mp hq with rfl | hqtail
    · intro hbad
      rw [findFirstMatch, hbad] at hnone
      simp at hnone
    · cases hm : matchesPattern p key with
      | error e => rw [findFirstMatch, hm] at hnone; simp at hnone
      | ok b =>
        cases b with
        | true => rw [findFirstMatch, hm] at hnone; simp at hnone
        | false =>
          rw [findFirstMatch, hm] at hnone
          exact ih hnone q hqtail

/-- The GraphQL rejection loop answers `true` whenever some key matches a
rejection pattern and no examined pattern throws. -/
theorem rejectionScan_eq_true (secretConfig : SecretConfig) (keys : List String)
    (hok : ∀ k ∈ keys, ∀ p ∈ secretConfig.rejections, ∃ b, matchesPattern p k = .ok b)
    (hmatch : ∃ k ∈ keys, ∃ p ∈ secretConfig.rejections, matchesPattern p k = .ok true) :
    rejectionScan secretConfig keys = .ok true := by
  induction keys with
  | nil => simp at hmatch
  | cons k ks ih =>
    obtain ⟨r, hr⟩ := findFirstMatch_isOk secretConfig.rejections k
      (hok k (List.mem_cons_self k ks))
    cases r with
    | some q => simp only [rejectionScan, findMatchingRejection, hr]
    | none =>
      simp only [rejectionScan, findMatchingRejection, hr]
      obtain ⟨k2, hk2mem, hk2⟩ := hmatch
      rcases List.mem_cons.mp hk2mem with rfl | hktail
      · obtain ⟨p, hpmem, hp⟩ := hk2
        exact absurd hp (findFirstMatch_none_no_match _ _ hr p hpmem)
      · exact ih (fun k3 h3 => hok k3 (List.mem_cons_of_mem _ h3)) ⟨k2, hktail, hk2⟩

/-- C3 (corrected).  If any request key — the HTTP key or any GraphQL
field key of the batch — matches a rejection pattern, and no examined
rejection pattern throws the unknown-variable error, then the response is
the permanent 403, the request is never forwarded, no approval is
requested and the stored lists are untouched, regardless of any matching
grants; rejections are thus decided strictly before grants.  (Without the
throw-free proviso the request can instead fail with the propagated
matching error — see the counterexample — but it is still never
forwarded.) -/
theorem rejection_precedes_grant (env : List (String × String))
    (approvalFn : Option ApprovalFn) (gqlSuggest : GqlSuggest)
    (cache : List (String × List OpenApiPath)) (req : RequestLoaded)
    (secretConfig : SecretConfig) (parsed : ParsedGraphQLRequest)
    (hok : ∀ k ∈ getGraphQLRequestKeys parsed, ∀ p ∈ secretConfig.rejections,
      ∃ b, matchesPattern p k = .ok b)
    (hmatch : ∃ k ∈ getGraphQLRequestKeys parsed, ∃ p ∈ secretConfig.rejections,
      matchesPattern p k = .ok true) :
    handleGraphQLRequestParsed env approvalFn gqlSuggest req secretConfig parsed =
      .ok ⟨.respond 403 "Forbidden - Request permanently rejected", secretConfig, []⟩ ∧
    (∀ path : String,
      (∀ p ∈ secretConfig.rejections,
        ∃ b, matchesPattern p (getRequestKey req.method path) = .ok b) →
      (∃ p ∈ secretConfig.rejections,
        matchesPattern p (getRequestKey req.method path) = .ok true) →
      handleHttpRequest cache env approvalFn req secretConfig path =
        .ok ⟨.respond 403 "Forbidden - Request permanently rejected", secretConfig, []⟩) := by
  constructor
  · have hscan := rejectionScan_eq_true secretConfig (getGraphQLRequestKeys parsed) hok hmatch
    simp only [handleGraphQLRequestParsed, hscan]
  · intro path hokH hmatchH
    obtain ⟨q, hq⟩ := findFirstMatch_some_of_match secretConfig.rejections
      (getRequestKey req.method path) hokH hmatchH
    simp only [handleHttpRequest, findMatchingRejection, hq]

/-- C3 witness: one rejected mutation key and one rejected HTTP key, with a
grant list that also matches, still produce the permanent 403 on both
flows. -/
theorem rejection_precedes_grant_witness :
    handleGraphQLRequestParsed [("TOK", "real")] none (fun _ _ => [])
        ⟨⟨"h", "/graphql", ""⟩, "POST", [("authorization", "FAKE")], some "b"⟩
        ⟨"FAKE", "TOK", ["GRAPHQL mutation f(a: 1)", "POST /x"],
          ["GRAPHQL mutation f(a: 1)", "POST /x"]⟩
        ⟨[], [⟨"f", [⟨"a", .intJ 1⟩]⟩]⟩ =
      .ok ⟨.respond 403 "Forbidden - Request permanently rejected",
        ⟨"FAKE", "TOK", ["GRAPHQL mutation f(a: 1)", "POST /x"],
          ["GRAPHQL mutation f(a: 1)", "POST /x"]⟩, []⟩ ∧
    handleHttpRequest [] [("TOK", "real")] none
        ⟨⟨"h", "/graphql", ""⟩, "POST", [("authorization", "FAKE")], some "b"⟩
        ⟨"FAKE", "TOK", ["GRAPHQL mutation f(a: 1)", "POST /x"],
          ["GRAPHQL mutation f(a: 1)", "POST /x"]⟩ "/x" =
      .ok ⟨.respond 403 "Forbidden - Request permanently rejected",
        ⟨"FAKE", "TOK", ["GRAPHQL mutation f(a: 1)", "POST /x"],
          ["GRAPHQL mutation f(a: 1)", "POST /x"]⟩, []⟩ := by
  have h := rejection_precedes_grant [("TOK", "real")] none (fun _ _ => []) []
    ⟨⟨"h", "/graphql", ""⟩, "POST", [("authorization", "FAKE")], some "b"⟩
    ⟨"FAKE", "TOK", ["GRAPHQL mutation f(a: 1)", "POST /x"],
      ["GRAPHQL mutation f(a: 1)", "POST /x"]⟩
    ⟨[], [⟨"f", [⟨"a", .intJ 1⟩]⟩]⟩ (by decide) (by decide)
  exact ⟨h.1, h.2 "/x" (by decide) (by decide)⟩

/-- C3 counterexample: a key that does match a stored rejection pattern is
answered with the propagated unknown-variable error, not 403, because an
earlier rejection pattern throws while being matched.  The request is
still not forwarded. -/
theorem rejection_preempted_by_matching_error :
    matchesPattern "GRAPHQL mutation f(a: 1)" "GRAPHQL mutation f(a: 1)" = .ok true ∧
    getGraphQLRequestKeys ⟨[], [⟨"f", [⟨"a", .intJ 1⟩]⟩]⟩ =
      ["GRAPHQL mutation f(a: 1)"] ∧
    handleGraphQLRequestParsed [("TOK", "real")]
        (some (fun _ _ _ _ => .ok .rejectOnce)) (fun _ _ => [])
        ⟨⟨"h", "/graphql", ""⟩, "POST", [("authorization", "FAKE")], some "b"⟩
        ⟨"FAKE", "TOK", [],
          ["GRAPHQL mutation f(a: $FOO)", "GRAPHQL mutation f(a: 1)"]⟩
        ⟨[], [⟨"f", [⟨"a", .intJ 1⟩]⟩]⟩ =
      .error (unknownVarMsg "FOO") :=
  ⟨by decide, by decide, by decide⟩

/-! ## Claim C4 -/

/-- C4 (corrected).  With more than one ungranted GraphQL field the
mediation core does not issue one approval per field: it issues exactly one
approval-transport call covering all pending fields, whose options list is
the single exact-only `all` entry over the joined description; a
`reject-once` answer to that one call rejects the whole request with 403
and leaves the stored lists untouched. -/
theorem multi_field_single_approval (env : List (String × String))
    (f : ApprovalFn) (gqlSuggest : GqlSuggest) (req : RequestLoaded)
    (secretConfig : SecretConfig) (parsed : ParsedGraphQLRequest)
    (cls : List String × List NeedsApproval)
    (hscan : rejectionScan secretConfig (getGraphQLRequestKeys parsed) = .ok false)
    (hneeds : needsApprovalOf secretConfig parsed = .ok cls)
    (hlen : 2 ≤ cls.2.length) :
    (handleGraphQLRequestParsed env (some f) gqlSuggest req secretConfig parsed).map
        (fun r => r.calls) =
      .ok [⟨req.url.host, "GRAPHQL", approvalDescriptionOf cls.2,
        [⟨"all", "Exact: " ++ approvalDescriptionOf cls.2⟩]⟩] ∧
    (f req.url.host "GRAPHQL" (approvalDescriptionOf cls.2)
        [⟨"all", "Exact: " ++ approvalDescriptionOf cls.2⟩] = .ok .rejectOnce →
      handleGraphQLRequestParsed env (some f) gqlSuggest req secretConfig parsed =
        .ok ⟨.respond 403 "Forbidden - Request rejected", secretConfig,
          [⟨req.url.host, "GRAPHQL", approvalDescriptionOf cls.2,
            [⟨"all", "Exact: " ++ approvalDescriptionOf cls.2⟩]⟩]⟩) := by
  obtain ⟨granted, needs⟩ := cls
  match needs, hlen with
  | a :: b :: t, _ =>
    simp only [handleGraphQLRequestParsed, hscan, hneeds, List.isEmpty_cons,
      Bool.false_eq_true, if_false]
    cases hf : f req.url.host "GRAPHQL" (approvalDescriptionOf (a :: b :: t))
        [⟨"all", "Exact: " ++ approvalDescriptionOf (a :: b :: t)⟩] with
    | error e => exact ⟨by simp [Except.map], fun hro => by simp at hro⟩
    | ok resp =>
      cases resp with
      | allowOnce => exact ⟨by simp [Except.map], fun hro => by simp at hro⟩
      | allowForever p => exact ⟨by simp [Except.map], fun hro => by simp at hro⟩
      | rejectOnce => exact ⟨by simp [Except.map], fun _ => by simp⟩
      | rejectForever p => exact ⟨by simp [Except.map], fun hro => by simp at hro⟩

/-- C4 witness: two ungranted mutations, a rejecting transport. -/
theorem multi_field_single_approval_witness :
    (handleGraphQLRequestParsed [("TOK", "real")]
        (some (fun _ _ _ _ => .ok .rejectOnce)) (fun _ _ => [])
        ⟨⟨"api.example.com", "/graphql", ""⟩, "POST",
          [("authorization", "FAKE")], some "b"⟩
        ⟨"FAKE", "TOK", [], []⟩
        ⟨[], [⟨"f", [⟨"a", .intJ 1⟩]⟩, ⟨"g", []⟩]⟩).map (fun r => r.calls) =
      .ok [⟨"api.example.com", "GRAPHQL", "mutation f(a: 1); mutation g",
        [⟨"all", "Exact: mutation f(a: 1); mutation g"⟩]⟩] ∧
    handleGraphQLRequestParsed [("TOK", "real")]
        (some (fun _ _ _ _ => .ok .rejectOnce)) (fun _ _ => [])
        ⟨⟨"api.example.com", "/graphql", ""⟩, "POST",
          [("authorization", "FAKE")], some "b"⟩
        ⟨"FAKE", "TOK", [], []⟩
        ⟨[], [⟨"f", [⟨"a", .intJ 1⟩]⟩, ⟨"g", []⟩]⟩ =
      .ok ⟨.respond 403 "Forbidden - Request rejected", ⟨"FAKE", "TOK", [], []⟩,
        [⟨"api.example.com", "GRAPHQL", "mutation f(a: 1); mutation g",
          [⟨"all", "Exact: mutation f(a: 1); mutation g"⟩]⟩]⟩ := by
  have h := multi_field_single_approval [("TOK", "real")]
    (fun _ _ _ _ => .ok .rejectOnce) (fun _ _ => [])
    ⟨⟨"api.example.com", "/graphql", ""⟩, "POST",
      [("authorization", "FAKE")], some "b"⟩
    ⟨"FAKE", "TOK", [], []⟩
    ⟨[], [⟨"f", [⟨"a", .intJ 1⟩]⟩, ⟨"g", []⟩]⟩
    ([], [⟨"GRAPHQL mutation f(a: 1)", "mutation", ⟨"f", [⟨"a", .intJ 1⟩]⟩⟩,
      ⟨"GRAPHQL mutation g", "mutation", ⟨"g", []⟩⟩])
    (by decide) rfl (by decide)
  exact ⟨h.1, h.2 rfl⟩

/-- C4 counterexample: two ungranted fields, yet the handler performs one
approval call, not one per field, refuting the per-field parallel-approval
claim (the 403 on the first rejection does hold, for the single combined
call). -/
theorem multi_field_not_per_field_calls :
    (needsApprovalOf ⟨"FAKE", "TOK", [], []⟩
        ⟨[], [⟨"f", [⟨"a", .intJ 1⟩]⟩, ⟨"g", []⟩]⟩).map (fun c => c.2.length) =
      .ok 2 ∧
    (handleGraphQLRequestParsed [("TOK", "real")]
        (some (fun _ _ _ _ => .ok .rejectOnce)) (fun _ _ => [])
        ⟨⟨"api.example.com", "/graphql", ""⟩, "POST",
          [("authorization", "FAKE")], some "b"⟩
        ⟨"FAKE", "TOK", [], []⟩
        ⟨[], [⟨"f", [⟨"a", .intJ 1⟩]⟩, ⟨"g", []⟩]⟩).map (fun r => r.calls.length) =
      .ok 1 :=
  ⟨by decide, by decide⟩

/-! ## Claim C5 -/

/-- C5 (corrected).  A non-`$ANY` variable in a pattern throws exactly when
value matching reaches the variable; the error then propagates out of the
matching functions, through the rejection lookup, and out of the request
handlers — the handlers have no catch around the lookups, so the request
fails with the error instead of the pattern being treated as
non-matching.  (Matching such a pattern against a key that never reaches
the variable returns an ordinary boolean — see the counterexample.) -/
theorem unknown_variable_error_propagates :
    (∀ (n : Nat) (v : String) (r : GQLValue), v ≠ "ANY" →
      matchValueNodeF (n + 1) (.varV v) r = .error (unknownVarMsg v)) ∧
    (∀ (env : List (String × String)) (approvalFn : Option ApprovalFn)
      (gqlSuggest : GqlSuggest) (req : RequestLoaded)
      (secretConfig : SecretConfig) (parsed : ParsedGraphQLRequest) (e : String),
      rejectionScan secretConfig (getGraphQLRequestKeys parsed) = .error e →
      handleGraphQLRequestParsed env approvalFn gqlSuggest req secretConfig parsed =
        .error e) ∧
    (∀ (cache : List (String × List OpenApiPath)) (env : List (String × String))
      (approvalFn : Option ApprovalFn) (req : RequestLoaded)
      (secretConfig : SecretConfig) (path e : String),
      findMatchingRejection secretConfig (getRequestKey req.method path) = .error e →
      handleHttpRequest cache env approvalFn req secretConfig path = .error e) := by
  refine ⟨fun n v r hv => ?_, fun env approvalFn gqlSuggest req sc parsed e herr => ?_,
    fun cache env approvalFn req sc path e herr => ?_⟩
  · simp [matchValueNodeF, hv]
  · simp only [handleGraphQLRequestParsed, herr]
  · simp only [handleHttpRequest, herr]

/-- C5 witness: a `$FOO` pattern errors at the value matcher, and the
propagated error is the whole outcome of both handlers. -/
theorem unknown_variable_error_propagates_witness :
    matchValueNodeF 1 (.varV "FOO") (.intV "1") = .error (unknownVarMsg "FOO") ∧
    handleGraphQLRequestParsed [("TOK", "real")] none (fun _ _ => [])
        ⟨⟨"h", "/graphql", ""⟩, "POST", [("authorization", "FAKE")], some "b"⟩
        ⟨"FAKE", "TOK", [], ["GRAPHQL query user(id: $FOO)"]⟩
        ⟨[⟨"user", [⟨"id", .intJ 7⟩]⟩], []⟩ =
      .error (unknownVarMsg "FOO") ∧
    handleHttpRequest [] [("TOK", "real")] none
        ⟨⟨"h", "/", ""⟩, "GRAPHQL", [("authorization", "FAKE")], some "b"⟩
        ⟨"FAKE", "TOK", [], ["GRAPHQL query user(id: $FOO)"]⟩
        "query user(id: 7)" =
      .error (unknownVarMsg "FOO") :=
  ⟨unknown_variable_error_propagates.1 0 "FOO" (.intV "1") (by decide),
    unknown_variable_error_propagates.2.1 [("TOK", "real")] none (fun _ _ => [])
      ⟨⟨"h", "/graphql", ""⟩, "POST", [("authorization", "FAKE")], some "b"⟩
      ⟨"FAKE", "TOK", [], ["GRAPHQL query user(id: $FOO)"]⟩
      ⟨[⟨"user", [⟨"id", .intJ 7⟩]⟩], []⟩ (unknownVarMsg "FOO") (by decide),
    unknown_variable_error_propagates.2.2 [] [("TOK", "real")] none
      ⟨⟨"h", "/", ""⟩, "GRAPHQL", [("authorization", "FAKE")], some "b"⟩
      ⟨"FAKE", "TOK", [], ["GRAPHQL query user(id: $FOO)"]⟩
      "query user(id: 7)" (unknownVarMsg "FOO") (by decide)⟩

/-- C5 counterexample: the pattern `GRAPHQL mutation createUser(name: $FOO)`
matched against the request key `GRAPHQL query user` returns an ordinary
`false` without raising any error, refuting the claim that matching such a
pattern against any request key raises an error; and when the error is
raised, the handler fails the whole request with it instead of treating
the pattern as non-matching. -/
theorem unknown_variable_not_always_error :
    matchesPattern "GRAPHQL mutation createUser(name: $FOO)" "GRAPHQL query user" =
      .ok false ∧
    handleGraphQLRequestParsed [("TOK", "real")]
        (some (fun _ _ _ _ => .ok .allowOnce)) (fun _ _ => [])
        ⟨⟨"h", "/graphql", ""⟩, "POST", [("authorization", "FAKE")], some "b"⟩
        ⟨"FAKE", "TOK", ["GRAPHQL mutation createUser(name: \"Bob\")"],
          ["GRAPHQL mutation createUser(name: $FOO)"]⟩
        ⟨[], [⟨"createUser", [⟨"name", .strJ "Bob"⟩]⟩]⟩ =
      .error (unknownVarMsg "FOO") :=
  ⟨by decide, by decide⟩

/-! ## Claim C6 -/

/-- C6 (corrected).  String equality of pattern and request key implies a
match (the exact-equality fast path of `matchesPattern`), for every
pattern, wildcard-free or not.  The converse direction of the claimed
equivalence fails even for patterns containing neither `*` nor `$ANY`:
GraphQL field matching pairs arguments by name irrespective of their
order, so syntactically different pattern and key can match (see the
counterexample). -/
theorem pattern_equality_implies_match (pattern requestKey : String)
    (h : pattern = requestKey) : matchesPattern pattern requestKey = .ok true := by
  subst h
  simp [matchesPattern]

/-- C6 witness: a wildcard-free pattern matches itself. -/
theorem pattern_equality_implies_match_witness :
    matchesPattern "GET /repos/acme/app" "GET /repos/acme/app" = .ok true :=
  pattern_equality_implies_match "GET /repos/acme/app" "GET /repos/acme/app" rfl

/-- C6 counterexample: a pattern and a request key that contain neither
`*` nor `$ANY` and are different strings, yet match, because GraphQL
argument matching is order-insensitive.  This refutes the claimed
equivalence `matches(P, K) ⇔ P = K`. -/
theorem match_without_string_equality :
    strContains "GRAPHQL query f(a: 1, b: 2)" "*" = false ∧
    strContains "GRAPHQL query f(a: 1, b: 2)" "$ANY" = false ∧
    strContains "GRAPHQL query f(b: 2, a: 1)" "*" = false ∧
    strContains "GRAPHQL query f(b: 2, a: 1)" "$ANY" = false ∧
    ("GRAPHQL query f(a: 1, b: 2)" : String) ≠ "GRAPHQL query f(b: 2, a: 1)" ∧
    matchesPattern "GRAPHQL query f(a: 1, b: 2)" "GRAPHQL query f(b: 2, a: 1)" =
      .ok true :=
  ⟨by decide, by decide, by decide, by decide, by decide, by decide⟩

/-! ## Claim C7 -/

/-- C7 (confirmed).  Adding a pattern already present in the grants
(respectively rejections) list leaves the `SecretConfig` unchanged and
performs no persistence write; adding an absent pattern appends it at the
end and writes; and both operations preserve freedom from duplicates. -/
theorem add_pattern_idempotent_append (secretC : SecretConfig) (pattern : String) :
    (pattern ∈ secretC.grants →
      addGrant secretC pattern = (secretC, false)) ∧
    (pattern ∉ secretC.grants →
      addGrant secretC pattern =
        ({ secretC with grants := secretC.grants ++ [pattern] }, true)) ∧
    (secretC.grants.Nodup → (addGrant secretC pattern).1.grants.Nodup) ∧
    (pattern ∈ secretC.rejections →
      addRejection secretC pattern = (secretC, false)) ∧
    (pattern ∉ secretC.rejections →
      addRejection secretC pattern =
        ({ secretC with rejections := secretC.rejections ++ [pattern] }, true)) ∧
    (secretC.rejections.Nodup → (addRejection secretC pattern).1.rejections.Nodup) := by
  refine ⟨fun hin => ?_, fun hout => ?_, fun hnd => ?_,
    fun hin => ?_, fun hout => ?_, fun hnd => ?_⟩
  · simp [addGrant, hin]
  · simp [addGrant, hout]
  · by_cases hin : pattern ∈ secretC.grants
    · simpa [addGrant, hin] using hnd
    · simp [addGrant, hin, List.nodup_append, hnd]
  · simp [addRejection, hin]
  · simp [addRejection, hout]
  · by_cases hin : pattern ∈ secretC.rejections
    · simpa [addRejection, hin] using hnd
    · simp [addRejection, hin, List.nodup_append, hnd]

/-- C7 witness: re-adding `GET /a` is a silent no-op, adding `GET /b`
appends at the end with a write. -/
theorem add_pattern_idempotent_append_witness :
    addGrant ⟨"S", "T", ["GET /a"], []⟩ "GET /a" = (⟨"S", "T", ["GET /a"], []⟩, false) ∧
    addGrant ⟨"S", "T", ["GET /a"], []⟩ "GET /b" =
      (⟨"S", "T", ["GET /a", "GET /b"], []⟩, true) :=
  ⟨(add_pattern_idempotent_append ⟨"S", "T", ["GET /a"], []⟩ "GET /a").1 (by decide),
    by
      have h := (add_pattern_idempotent_append ⟨"S", "T", ["GET /a"], []⟩ "GET /b").2.1
        (by decide)
      simpa using h⟩

/-! ## Claim C9 -/

theorem templateSegsAgree_iff (ts : List PathSegment) (segs : List String) :
    templateSegsAgree ts segs = true ↔
      (ts.length = segs.length ∧
        ∀ i, (hi : i < ts.length) → (ts.get ⟨i, hi⟩).isParameter = false →
          segs[i]? = some (ts.get ⟨i, hi⟩).value) := by
  induction ts generalizing segs with
  | nil =>
    cases segs with
    | nil => simp [templateSegsAgree]
    | cons a rest => simp [templateSegsAgree]
  | cons t ts ih =>
    cases segs with
    | nil => simp [templateSegsAgree]
    | cons a rest =>
      rw [templateSegsAgree, Bool.and_eq_true, ih]
      constructor
      · rintro ⟨ht, hlen, hall⟩
        refine ⟨by simpa using hlen, ?_⟩
        intro i hi hpar
        cases i with
        | zero =>
          have hpar0 : t.isParameter = false := hpar
          rcases Bool.or_eq_true _ _ |>.mp ht with hp | hv
          · rw [hpar0] at hp
            cases hp
          · show (a :: rest)[0]? = some t.value
            simp [beq_iff_eq.mp hv]
        | succ j =>
          have hj : j < ts.length := by simpa using hi
          have hp2 : (ts.get ⟨j, hj⟩).isParameter = false := by
            simpa using hpar
          simpa using hall j hj hp2
      · rintro ⟨hlen, hall⟩
        refine ⟨?_, by simpa using hlen, fun j hj hpar => ?_⟩
        · by_cases hp : t.isParameter
          · simp [hp]
          · have h0 : (a :: rest)[0]? = some t.value :=
              hall 0 (by simp) (by simpa using hp)
            simp only [List.getElem?_cons_zero, Option.some.injEq] at h0
            simp [h0]
        · have hstep := hall (j + 1) (by simpa using hj) (by simpa using hpar)
          simpa using hstep

theorem apiPathQualifies_iff (ap : OpenApiPath) (method path : String) :
    apiPathQualifies ap (strToUpper method) (pathSegsOf (stripQuery path)) = true ↔
      OpenApiKeep method path ap := by
  rw [apiPathQualifies, Bool.and_eq_true, Bool.and_eq_true, templateSegsAgree_iff,
    OpenApiKeep]
  constructor
  · rintro ⟨⟨hm, _⟩, hlen, hall⟩
    exact ⟨hm, hlen, hall⟩
  · rintro ⟨hm, hlen, hall⟩
    exact ⟨⟨hm, by simpa using hlen⟩, hlen, hall⟩

/-- C9 (confirmed).  The OpenAPI lookup strips the query string, splits the
concrete path on `/` discarding empty segments, and returns the first
indexed path of the host, in load order, whose method set contains the
uppercased method, whose segment count equals the concrete segment count,
and whose every non-parameter segment equals the corresponding concrete
segment; when the host is unknown or no indexed path qualifies it returns
none. -/
theorem openapi_lookup_first_match (cache : List (String × List OpenApiPath))
    (host method path : String) :
    (lookupAssoc cache host = none →
      matchPathToTemplate cache host method path = none) ∧
    (∀ paths, lookupAssoc cache host = some paths →
      (∀ ap, matchPathToTemplate cache host method path = some ap ↔
        OpenApiKeep method path ap ∧
          ∃ i, ∃ hi : i < paths.length, paths[i] = ap ∧
            ∀ j, (hj : j < i) → ¬ OpenApiKeep method path paths[j]) ∧
      (matchPathToTemplate cache host method path = none ↔
        ∀ ap ∈ paths, ¬ OpenApiKeep method path ap)) := by
  refine ⟨fun hnone => by simp [matchPathToTemplate, hnone], fun paths hpaths => ?_⟩
  constructor
  · intro ap
    rw [matchPathToTemplate, hpaths]
    simp only [List.find?_eq_some_iff_getElem]
    constructor
    · rintro ⟨hq, i, hi, hget, hprev⟩
      refine ⟨(apiPathQualifies_iff ap method path).mp hq, i, hi, hget, fun j hj => ?_⟩
      have := hprev j hj
      intro hk
      rw [← apiPathQualifies_iff paths[j] method path] at hk
      simp only [Bool.not_eq_eq_eq_not, Bool.not_true] at this
      rw [hk] at this
      cases this
    · rintro ⟨hk, i, hi, hget, hprev⟩
      refine ⟨(apiPathQualifies_iff ap method path).mpr hk, i, hi, hget, fun j hj => ?_⟩
      have := hprev j hj
      rw [← apiPathQualifies_iff paths[j] method path] at this
      simp only [Bool.not_eq_eq_eq_not, Bool.not_true]
      exact Bool.not_eq_true _ |>.mp (fun hq => this hq)
  · rw [matchPathToTemplate, hpaths]
    simp only [List.find?_eq_none]
    constructor
    · intro hall ap hap hk
      exact absurd ((apiPathQualifies_iff ap method path).mpr hk) (by simpa using hall ap hap)
    · intro hall ap hap
      simp only [Bool.not_eq_true]
      cases hq : apiPathQualifies ap (strToUpper method) (pathSegsOf (stripQuery path)) with
      | false => rfl
      | true => exact absurd ((apiPathQualifies_iff ap method path).mp hq) (hall ap hap)

/-- C9 witness: with two indexed paths for the host, the lookup skips the
non-qualifying first one and returns the second, and a host absent from
the index yields none. -/
theorem openapi_lookup_first_match_witness :
    matchPathToTemplate
        [("h", [⟨"/b/\x7bx\x7d", [⟨"b", false⟩, ⟨"\x7bx\x7d", true⟩], ["GET"]⟩,
          ⟨"/a/\x7bx\x7d", [⟨"a", false⟩, ⟨"\x7bx\x7d", true⟩], ["GET"]⟩])]
        "h" "get" "/a/b?q=1" =
      some ⟨"/a/\x7bx\x7d", [⟨"a", false⟩, ⟨"\x7bx\x7d", true⟩], ["GET"]⟩ ∧
    matchPathToTemplate [] "h" "get" "/a/b?q=1" = none := by
  constructor
  · exact ((openapi_lookup_first_match
      [("h", [⟨"/b/\x7bx\x7d", [⟨"b", false⟩, ⟨"\x7bx\x7d", true⟩], ["GET"]⟩,
        ⟨"/a/\x7bx\x7d", [⟨"a", false⟩, ⟨"\x7bx\x7d", true⟩], ["GET"]⟩])]
      "h" "get" "/a/b?q=1").2 _ rfl).1 _ |>.mpr
      ⟨⟨by decide, by decide, by decide⟩, 1, by decide, rfl, by decide⟩
  · exact (openapi_lookup_first_match [] "h" "get" "/a/b?q=1").1 rfl

/-! ## Claim C10 -/

/-- C10 (confirmed).  Secret detection is local to the request's own host:
it consults only the `SecretConfig` list found under the request's host
(an unknown host detects nothing), and within that list it selects the
first entry, in list order, whose fake secret occurs as a substring of
some header value.  When no secret of the request's own host occurs in the
loaded headers — whatever secrets of other hosts the headers may carry —
the request is forwarded as-is, its header values untouched. -/
theorem secret_detection_host_local_first (config : ProxyConfig) (host : String)
    (headers : List (String × String)) :
    (lookupAssoc config host = none →
      findSecretConfigFromHeaders config host headers = none) ∧
    (∀ hc, lookupAssoc config host = some hc → ∀ sc,
      findSecretConfigFromHeaders config host headers = some sc ↔
        (∃ kv ∈ headers, strContains kv.2 sc.secret = true) ∧
        ∃ i, ∃ hi : i < hc.secrets.length, hc.secrets[i] = sc ∧
          ∀ j, (hj : j < i) →
            ¬ ∃ kv ∈ headers, strContains kv.2 hc.secrets[j].secret = true) ∧
    (∀ (cache : List (String × List OpenApiPath)) (env : List (String × String))
      (approvalFn : Option ApprovalFn) (gqlSuggest : GqlSuggest)
      (parseFromParams parseBody : String → Option ParsedGraphQLRequest)
      (reqIn : RequestIn),
      (∀ hc, lookupAssoc config (loadRequest reqIn).url.host = some hc →
        ∀ sc ∈ hc.secrets, ∀ kv ∈ (loadRequest reqIn).headers,
          strContains kv.2 sc.secret = false) →
      handleRequest config cache env approvalFn gqlSuggest parseFromParams
          parseBody reqIn =
        .ok (forwardRequest (loadRequest reqIn), [])) := by
  refine ⟨fun hnone => by simp [findSecretConfigFromHeaders, hnone],
    fun hc hhc sc => ?_, fun cache env approvalFn gqlSuggest pfp pb reqIn hclean => ?_⟩
  · rw [findSecretConfigFromHeaders, hhc]
    rw [List.find?_eq_some_iff_getElem]
    constructor
    · rintro ⟨hdet, i, hi, hget, hprev⟩
      refine ⟨by simpa using hdet, i, hi, hget, fun j hj => ?_⟩
      have := hprev j hj
      simp only [Bool.not_eq_eq_eq_not, Bool.not_true, List.any_eq_false] at this
      rintro ⟨kv, hkv, hc2⟩
      exact absurd hc2 (by simpa using this kv hkv)
    · rintro ⟨hdet, i, hi, hget, hprev⟩
      refine ⟨by simpa using hdet, i, hi, hget, fun j hj => ?_⟩
      have := hprev j hj
      simp only [Bool.not_eq_eq_eq_not, Bool.not_true, List.any_eq_false]
      intro kv hkv
      cases hcv : strContains kv.2 hc.secrets[j].secret with
      | false => simp
      | true => exact absurd ⟨kv, hkv, hcv⟩ this
  · have hnone : findSecretConfigFromHeaders config (loadRequest reqIn).url.host
        (loadRequest reqIn).headers = none := by
      rw [findSecretConfigFromHeaders]
      cases hl : lookupAssoc config (loadRequest reqIn).url.host with
      | none => rfl
      | some hc =>
        apply List.find?_eq_none.mpr
        intro sc hsc
        simp only [Bool.not_eq_true, List.any_eq_false]
        intro kv hkv
        exact hclean hc hl sc hsc kv hkv
    simp only [handleRequest, hnone]

/-- C10 witness: a request to `h1` whose headers carry `h2`'s fake secret
is not mediated — the foreign secret is not detected and the request is
forwarded with the value, still containing that secret, intact; and within
a host the second configured secret is selected when only it occurs. -/
theorem secret_detection_host_local_first_witness :
    handleRequest
        [("h1", ⟨[⟨"H1SECRET", "T1", [], []⟩], none⟩),
          ("h2", ⟨[⟨"H2SECRET", "T2", [], []⟩], none⟩)]
        [] [] none (fun _ _ => []) (fun _ => none) (fun _ => none)
        ⟨⟨"h1", "/x", ""⟩, "GET", [("authorization", "Bearer H2SECRET")], ""⟩ =
      .ok (forwardRequest (loadRequest
        ⟨⟨"h1", "/x", ""⟩, "GET", [("authorization", "Bearer H2SECRET")], ""⟩), []) ∧
    strContains "Bearer H2SECRET" "H2SECRET" = true ∧
    findSecretConfigFromHeaders
        [("h1", ⟨[⟨"A", "TA", [], []⟩, ⟨"B", "TB", [], []⟩], none⟩)] "h1"
        [("authorization", "Bearer B")] = some ⟨"B", "TB", [], []⟩ := by
  refine ⟨?_, by decide, ?_⟩
  · exact (secret_detection_host_local_first
      [("h1", ⟨[⟨"H1SECRET", "T1", [], []⟩], none⟩),
        ("h2", ⟨[⟨"H2SECRET", "T2", [], []⟩], none⟩)]
      "h1" [("authorization", "Bearer H2SECRET")]).2.2 [] [] none (fun _ _ => [])
      (fun _ => none) (fun _ => none)
      ⟨⟨"h1", "/x", ""⟩, "GET", [("authorization", "Bearer H2SECRET")], ""⟩
      (by decide)
  · exact ((secret_detection_host_local_first
      [("h1", ⟨[⟨"A", "TA", [], []⟩, ⟨"B", "TB", [], []⟩], none⟩)] "h1"
      [("authorization", "Bearer B")]).2.1 ⟨[⟨"A", "TA", [], []⟩, ⟨"B", "TB", [], []⟩],
        none⟩ rfl ⟨"B", "TB", [], []⟩).mpr
      ⟨⟨("authorization", "Bearer B"), by decide, by decide⟩, 1, by decide, rfl,
        by decide⟩

/-! ## Claim C8: split/join groundwork -/

theorem splitOnCharL_ne_nil (c : Char) (l : List Char) : splitOnCharL c l ≠ [] := by
  cases l with
  | nil => simp [splitOnCharL]
  | cons x xs =>
    rw [splitOnCharL]
    by_cases hx : x = c
    · simp [hx]
    · simp only [hx, if_false]
      cases splitOnCharL c xs <;> simp

theorem not_mem_of_mem_splitOnCharL (c : Char) (l : List Char) :
    ∀ part ∈ splitOnCharL c l, c ∉ part := by
  induction l with
  | nil =>
    intro part hp
    simp [splitOnCharL] at hp
    simp [hp]
  | cons x xs ih =>
    intro part hp
    rw [splitOnCharL] at hp
    by_cases hx : x = c
    · simp only [hx, if_true, eq_self_iff_true, if_pos rfl] at hp
      rcases List.mem_cons.mp hp with rfl | hmem
      · simp
      · exact ih part hmem
    · simp only [hx, if_false] at hp
      cases hr : splitOnCharL c xs with
      | nil => exact absurd hr (splitOnCharL_ne_nil c xs)
      | cons h t =>
        rw [hr] at hp
        rcases List.mem_cons.mp hp with rfl | hmem
        · intro hcm
          rcases List.mem_cons.mp hcm with heq | hmem2
          · exact hx heq.symm
          · exact ih h (hr ▸ List.mem_cons_self h t) hmem2
        · exact ih part (hr ▸ List.mem_cons_of_mem h hmem)

theorem splitOnCharL_no_sep (c : Char) (l : List Char) (hc : c ∉ l) :
    splitOnCharL c l = [l] := by
  induction l with
  | nil => rfl
  | cons x xs ih =>
    have hx : ¬ x = c := fun he => hc (he ▸ List.mem_cons_self x xs)
    have hxs : c ∉ xs := fun hm => hc (List.mem_cons_of_mem x hm)
    rw [splitOnCharL]
    simp only [hx, if_false, ih hxs]

theorem splitOnCharL_append_sep (c : Char) (x r : List Char) (hx : c ∉ x) :
    splitOnCharL c (x ++ c :: r) = x :: splitOnCharL c r := by
  induction x with
  | nil => simp [splitOnCharL]
  | cons a xs ih =>
    have ha : ¬ a = c := fun he => hx (he ▸ List.mem_cons_self a xs)
    have hxs : c ∉ xs := fun hm => hx (List.mem_cons_of_mem a hm)
    rw [List.cons_append, splitOnCharL]
    simp only [ha, if_false, ih hxs]

theorem splitOnCharL_join (c : Char) (parts : List (List Char)) (hne : parts ≠ [])
    (h : ∀ p ∈ parts, c ∉ p) : splitOnCharL c (joinWithL c parts) = parts := by
  induction parts with
  | nil => exact absurd rfl hne
  | cons x t ih =>
    cases t with
    | nil =>
      rw [joinWithL]
      exact splitOnCharL_no_sep c x (h x (List.mem_cons_self x []))
    | cons y t2 =>
      rw [joinWithL, splitOnCharL_append_sep c x _ (h x (List.mem_cons_self _ _))]
      rw [ih (by simp) (fun p hp => h p (List.mem_cons_of_mem x hp))]

theorem mk_toList_eq (s : String) : (⟨s.toList⟩ : String) = s := by
  cases s
  rfl

theorem strSplitOn_slash_join (segs : List String) (hne : segs ≠ [])
    (h : ∀ p ∈ segs, '/' ∉ p.toList) :
    strSplitOn '/' ("/" ++ strJoinWith '/' segs) = "" :: segs := by
  have hdata : ("/" ++ strJoinWith '/' segs).toList =
      '/' :: joinWithL '/' (segs.map String.toList) := by
    simp [String.toList, String.data_append, strJoinWith]
  rw [strSplitOn, hdata]
  rw [show splitOnCharL '/' ('/' :: joinWithL '/' (segs.map String.toList)) =
    [] :: splitOnCharL '/' (joinWithL '/' (segs.map String.toList)) from by
      rw [splitOnCharL]
      simp]
  rw [splitOnCharL_join '/' (segs.map String.toList) (by simpa using hne)
    (by
      intro p hp
      obtain ⟨s, hs, rfl⟩ := List.mem_map.mp hp
      exact h s hs)]
  simp only [List.map_cons, List.map_map]
  congr 1
  rw [show List.map ((fun l => (⟨l⟩ : String)) ∘ String.toList) segs
      = List.map id segs from List.map_congr_left (fun s _ => mk_toList_eq s)]
  exact List.map_id segs

/-- Elements produced by the non-empty-segment path split never contain a
slash. -/
theorem pathSegsOf_no_slash (p : String) : ∀ s ∈ pathSegsOf p, '/' ∉ s.toList := by
  intro s hs
  have hs2 := List.mem_of_mem_filter hs
  rw [strSplitOn] at hs2
  obtain ⟨pl, hpl, rfl⟩ := List.mem_map.mp hs2
  simpa using not_mem_of_mem_splitOnCharL '/' _ pl hpl

theorem splitFirstL_sep (c : Char) (m r : List Char) (hm : c ∉ m) :
    splitFirstL c (m ++ c :: r) = some (m, r) := by
  induction m with
  | nil => simp [splitFirstL]
  | cons a ms ih =>
    have ha : ¬ a = c := fun he => hm (he ▸ List.mem_cons_self a ms)
    have hms : c ∉ ms := fun h2 => hm (List.mem_cons_of_mem a h2)
    rw [List.cons_append, splitFirstL]
    simp only [ha, if_false, ih hms, Option.map_some']

theorem splitFirstStr_space (m r : String) (hm : ' ' ∉ m.toList) :
    splitFirstStr ' ' (m ++ " " ++ r) = some (m, r) := by
  have hdata : (m ++ " " ++ r).toList = m.toList ++ ' ' :: r.toList := by
    simp [String.toList, String.data_append]
  rw [splitFirstStr, hdata, splitFirstL_sep ' ' _ _ hm]
  simp [mk_toList_eq]

theorem splitFirstL_recon (c : Char) :
    ∀ (l a b : List Char), splitFirstL c l = some (a, b) → l = a ++ c :: b ∧ c ∉ a := by
  intro l
  induction l with
  | nil => intro a b h; simp [splitFirstL] at h
  | cons x xs ih =>
    intro a b h
    rw [splitFirstL] at h
    by_cases hx : x = c
    · simp only [hx, if_pos rfl, Option.some.injEq, Prod.mk.injEq] at h
      obtain ⟨rfl, rfl⟩ := h
      exact ⟨by simp [hx], by simp⟩
    · simp only [hx, if_false] at h
      cases hrec : splitFirstL c xs with
      | none => rw [hrec] at h; simp at h
      | some p =>
        rw [hrec] at h
        simp only [Option.map_some', Option.some.injEq] at h
        obtain ⟨rfl, rfl⟩ : x :: p.1 = a ∧ p.2 = b := by
          constructor
          · exact congrArg Prod.fst h
          · exact congrArg Prod.snd h
        obtain ⟨hl, hmem⟩ := ih p.1 p.2 hrec
        refine ⟨by rw [List.cons_append, ← hl], ?_⟩
        intro hcm
        rcases List.mem_cons.mp hcm with heq | hmem2
        · exact hx heq.symm
        · exact hmem hmem2

theorem splitFirstStr_recon (K a b : String) (h : splitFirstStr ' ' K = some (a, b)) :
    K = a ++ " " ++ b ∧ ' ' ∉ a.toList := by
  rw [splitFirstStr] at h
  cases hsp : splitFirstL ' ' K.toList with
  | none => rw [hsp] at h; simp at h
  | some p =>
    rw [hsp] at h
    simp only [Option.map_some', Option.some.injEq] at h
    obtain ⟨ha, hb⟩ : (⟨p.1⟩ : String) = a ∧ (⟨p.2⟩ : String) = b := by
      constructor
      · exact congrArg Prod.fst h
      · exact congrArg Prod.snd h
    obtain ⟨hl, hmem⟩ := splitFirstL_recon ' ' K.toList p.1 p.2 hsp
    subst ha
    subst hb
    constructor
    · apply String.ext
      simpa [String.data_append] using hl
    · exact hmem

theorem globSegsMatch_refl (l : List String) : globSegsMatch l l = true := by
  induction l with
  | nil => rfl
  | cons x xs ih => simp [globSegsMatch, ih]

theorem globSegsMatch_iff (ps ks : List String) :
    globSegsMatch ps ks = true ↔
      (ps.length = ks.length ∧
        ∀ (i : Nat) (p k : String), ps[i]? = some p → ks[i]? = some k →
          (p = "*" ∨ p = k)) := by
  induction ps generalizing ks with
  | nil =>
    cases ks with
    | nil => simp [globSegsMatch]
    | cons a rest => simp [globSegsMatch]
  | cons p ps ih =>
    cases ks with
    | nil => simp [globSegsMatch]
    | cons k rest =>
      rw [globSegsMatch, Bool.and_eq_true, ih]
      constructor
      · rintro ⟨hh, hlen, hall⟩
        refine ⟨by simpa using hlen, ?_⟩
        intro i pi ki hp hk
        cases i with
        | zero =>
          simp only [List.getElem?_cons_zero, Option.some.injEq] at hp hk
          subst hp
          subst hk
          simpa using hh
        | succ j =>
          exact hall j pi ki (by simpa using hp) (by simpa using hk)
      · rintro ⟨hlen, hall⟩
        refine ⟨?_, by simpa using hlen, ?_⟩
        · simpa using hall 0 p k (by simp) (by simp)
        · intro j pj kj hp hk
          exact hall (j + 1) pj kj (by simpa using hp) (by simpa using hk)

theorem length_setStars (segs : List String) (pos : List Nat) :
    (setStars segs pos).length = segs.length := by
  induction pos generalizing segs with
  | nil => rfl
  | cons p rest ih =>
    show (setStars (segs.set p "*") rest).length = segs.length
    rw [ih, List.length_set]

theorem getElem?_setStars (segs : List String) (pos : List Nat) (j : Nat) :
    (setStars segs pos)[j]? =
      if j ∈ pos ∧ j < segs.length then some "*" else segs[j]? := by
  induction pos generalizing segs with
  | nil => simp [setStars]
  | cons p rest ih =>
    show (setStars (segs.set p "*") rest)[j]? = _
    rw [ih, List.length_set]
    by_cases hr : j ∈ rest ∧ j < segs.length
    · simp [hr, List.mem_cons, hr.1, hr.2]
    · simp only [hr, if_false]
      rw [List.getElem?_set]
      by_cases hp : p = j
      · subst hp
        by_cases hlt : p < segs.length
        · simp [hlt, List.mem_cons]
        · have : segs[p]? = none := List.getElem?_eq_none (by omega)
          simp [hlt, this]
      · simp only [hp, if_false]
        have : (j ∈ p :: rest ∧ j < segs.length) ↔ (j ∈ rest ∧ j < segs.length) := by
          constructor
          · rintro ⟨hm, hl⟩
            rcases List.mem_cons.mp hm with rfl | hm2
            · exact absurd rfl hp
            · exact ⟨hm2, hl⟩
          · rintro ⟨hm, hl⟩
            exact ⟨List.mem_cons_of_mem p hm, hl⟩
        have hcond : ¬((j = p ∨ j ∈ rest) ∧ j < segs.length) := by
          rintro ⟨hm | hm, hl⟩
          · exact hp hm.symm
          · exact hr ⟨hm, hl⟩
        simp [hcond]

theorem setStars_nil (pos : List Nat) : setStars [] pos = [] := by
  induction pos with
  | nil => rfl
  | cons p rest ih => exact ih

theorem setStars_no_slash (segs : List String) (pos : List Nat)
    (hseg : ∀ x ∈ segs, '/' ∉ x.toList) :
    ∀ x ∈ setStars segs pos, '/' ∉ x.toList := by
  intro x hx
  obtain ⟨j, hj, hget⟩ := List.getElem_of_mem hx
  have : (setStars segs pos)[j]? = some x := by
    rw [List.getElem?_eq_getElem hj, hget]
  rw [getElem?_setStars] at this
  by_cases hc : j ∈ pos ∧ j < segs.length
  · rw [if_pos hc] at this
    obtain rfl : "*" = x := Option.some.inj this
    simp [String.toList]
  · rw [if_neg hc] at this
    rcases List.getElem?_eq_some.mp this with ⟨hlt, hx⟩
    exact hseg x (hx ▸ List.getElem_mem hlt)

theorem slash_append_ne_star (x : String) : ("/" ++ x) ≠ "*" := by
  intro h
  have := congrArg String.data h
  simp [String.data_append] at this

theorem matchesPattern_http_char (m rest K : String) (hm : m ≠ "GRAPHQL")
    (hms : ' ' ∉ m.toList) (hstar : rest ≠ "*") :
    matchesPattern (m ++ " " ++ rest) K = .ok true ↔
      ∃ krest, K = m ++ " " ++ krest ∧ globMatch rest krest = true := by
  constructor
  · intro h
    by_cases heq : m ++ " " ++ rest = K
    · exact ⟨rest, heq.symm, by rw [globMatch]; exact globSegsMatch_refl _⟩
    · rw [matchesPattern, if_neg heq, splitFirstStr_space m rest hms] at h
      cases hK : splitFirstStr ' ' K with
      | none => rw [hK] at h; simp at h
      | some kp =>
        obtain ⟨k1, k2⟩ := kp
        rw [hK] at h
        obtain ⟨hKrecon, _⟩ := splitFirstStr_recon K k1 k2 hK
        by_cases hmeq : m = k1
        · subst hmeq
          simp [hstar, hm] at h
          exact ⟨k2, hKrecon, h⟩
        · simp [hmeq] at h
  · rintro ⟨krest, rfl, hglob⟩
    by_cases heq : m ++ " " ++ rest = m ++ " " ++ krest
    · rw [matchesPattern, if_pos heq]
    · rw [matchesPattern, if_neg heq, splitFirstStr_space m rest hms,
        splitFirstStr_space m krest hms]
      simp only [if_neg (by simp : ¬ (m ≠ m)), if_neg hstar, if_neg hm, hglob]

theorem matchesPattern_catchall (m x : String) (hms : ' ' ∉ m.toList) :
    matchesPattern (m ++ " *") (m ++ " " ++ x) = .ok true := by
  have hps : (m ++ " *") = m ++ " " ++ "*" := by
    apply String.ext
    simp [String.data_append]
  rw [hps]
  by_cases heq : m ++ " " ++ "*" = m ++ " " ++ x
  · rw [matchesPattern, if_pos heq]
  · rw [matchesPattern, if_neg heq, splitFirstStr_space m "*" hms,
      splitFirstStr_space m x hms]
    simp

theorem overlay_match_mono (m : String) (segs : List String) (S T : List Nat)
    (K : String) (hm : m ≠ "GRAPHQL") (hms : ' ' ∉ m.toList)
    (hseg : ∀ x ∈ segs, '/' ∉ x.toList) (hsub : ∀ x ∈ S, x ∈ T)
    (h : matchesPattern (overlayPattern m segs S) K = .ok true) :
    matchesPattern (overlayPattern m segs T) K = .ok true := by
  by_cases hnil : segs = []
  · subst hnil
    rw [overlayPattern, setStars_nil] at h ⊢
    exact h
  · rw [overlayPattern, matchesPattern_http_char m _ K hm hms
      (slash_append_ne_star _)] at h
    obtain ⟨krest, rfl, hglob⟩ := h
    rw [overlayPattern, matchesPattern_http_char m _ _ hm hms
      (slash_append_ne_star _)]
    refine ⟨krest, rfl, ?_⟩
    have hlenS : (setStars segs S).length = segs.length := length_setStars segs S
    have hlenT : (setStars segs T).length = segs.length := length_setStars segs T
    have hneS : setStars segs S ≠ [] := by
      intro hcon
      exact hnil (List.length_eq_zero.mp (by rw [← hlenS, hcon]; rfl))
    have hneT : setStars segs T ≠ [] := by
      intro hcon
      exact hnil (List.length_eq_zero.mp (by rw [← hlenT, hcon]; rfl))
    rw [globMatch, strSplitOn_slash_join _ hneS (setStars_no_slash segs S hseg),
      globSegsMatch_iff] at hglob
    rw [globMatch, strSplitOn_slash_join _ hneT (setStars_no_slash segs T hseg),
      globSegsMatch_iff]
    obtain ⟨hlen, hall⟩ := hglob
    refine ⟨by simpa [hlenS, hlenT] using hlen, ?_⟩
    intro i p k hp hk
    cases i with
    | zero =>
      simp only [List.getElem?_cons_zero, Option.some.injEq] at hp
      have h0 := hall 0 "" k (by simp) hk
      rcases h0 with h0 | h0
      · exact absurd h0 (by decide)
      · subst hp
        exact Or.inr h0
    | succ j =>
      simp only [List.getElem?_cons_succ] at hp hk
      rw [getElem?_setStars] at hp
      by_cases hcT : j ∈ T ∧ j < segs.length
      · rw [if_pos hcT] at hp
        exact Or.inl (Option.some.inj hp).symm
      · rw [if_neg hcT] at hp
        have hjlen : j < segs.length := by
          by_contra hge
          rw [List.getElem?_eq_none (by omega)] at hp
          cases hp
        have hjT : j ∉ T := fun hmem => hcT ⟨hmem, hjlen⟩
        have hjS : j ∉ S := fun hmem => hjT (hsub j hmem)
        have hpS : (setStars segs S)[j]? = some p := by
          rw [getElem?_setStars, if_neg (fun hc => hjS hc.1)]
          exact hp
        exact hall (j + 1) p k (by simpa using hpS) (by simpa using hk)

theorem overlay_match_catchall (m : String) (segs : List String) (S : List Nat)
    (K : String) (hm : m ≠ "GRAPHQL") (hms : ' ' ∉ m.toList)
    (h : matchesPattern (overlayPattern m segs S) K = .ok true) :
    matchesPattern (m ++ " *") K = .ok true := by
  rw [overlayPattern, matchesPattern_http_char m _ K hm hms
    (slash_append_ne_star _)] at h
  obtain ⟨krest, rfl, _⟩ := h
  exact matchesPattern_catchall m krest hms

theorem wildcardLoop_sublist (m : String) (segs : List String) (pp : List Nat) :
    ∀ (idxs : List Nat) (used : List String),
      ∃ js : List Nat, js.Sublist idxs ∧
        wildcardLoop m segs pp idxs used =
          js.map (fun i => ⟨wildcardPattern m segs pp i, wildcardPattern m segs pp i⟩) := by
  intro idxs
  induction idxs with
  | nil => exact fun _ => ⟨[], List.Sublist.refl [], rfl⟩
  | cons i rest ih =>
    intro used
    by_cases hc : used.contains (wildcardPattern m segs pp i)
    · obtain ⟨js, hsub, heq⟩ := ih used
      refine ⟨js, hsub.cons i, ?_⟩
      rw [wildcardLoop]
      simp only [hc, if_pos rfl, if_true]
      exact heq
    · obtain ⟨js, hsub, heq⟩ := ih (wildcardPattern m segs pp i :: used)
      refine ⟨i :: js, hsub.cons₂ i, ?_⟩
      rw [wildcardLoop]
      simp only [hc, if_false]
      rw [heq]
      rfl

theorem drop_subset_drop {α : Type} (l : List α) (i j : Nat) (hij : j ≤ i) :
    ∀ x ∈ l.drop i, x ∈ l.drop j := by
  intro x hx
  have heq : l.drop i = (l.drop j).drop (i - j) := by
    rw [List.drop_drop]
    congr 1
    omega
  rw [heq] at hx
  exact List.drop_subset _ _ hx

/-! ## Claim C8 -/

/-- C8 (corrected).  For a method other than the literal `GRAPHQL` that
contains no space, and a concrete path equal to its canonical reassembly
`"/" ++ segments.join("/")` (so no trailing slash, empty segment or query
remainder), with any template whose segment count matches the path, the
HTTP suggestion list is monotone: every pattern matches a superset of the
request keys matched by each earlier pattern, the list ends with the
catch-all `METHOD *`, and that final pattern matches every request key
with the same method.  Outside these conditions the superset property
fails — see the counterexample. -/
theorem suggestion_monotone (method actualPath : String)
    (template : Option OpenApiPath) (hm : method ≠ "GRAPHQL")
    (hms : ' ' ∉ method.toList)
    (hcanon : stripQuery actualPath =
      "/" ++ strJoinWith '/' (pathSegsOf (stripQuery actualPath)))
    (_hlen : ∀ t ∈ template,
      t.segments.length = (pathSegsOf (stripQuery actualPath)).length) :
    (generatePatternOptions method actualPath template).Pairwise
      (fun p q => ∀ K, matchesPattern p.pattern K = .ok true →
        matchesPattern q.pattern K = .ok true) ∧
    (generatePatternOptions method actualPath template).getLast? =
      some ⟨method ++ " *", method ++ " *"⟩ ∧
    (∀ rest : String,
      matchesPattern (method ++ " *") (method ++ " " ++ rest) = .ok true) := by
  have hseg := pathSegsOf_no_slash (stripQuery actualPath)
  have hexact : method ++ " " ++ stripQuery actualPath =
      overlayPattern method (pathSegsOf (stripQuery actualPath)) [] := by
    conv_lhs => rw [hcanon]
    rfl
  have hgen : generatePatternOptions method actualPath template =
      ⟨method ++ " " ++ stripQuery actualPath,
        method ++ " " ++ stripQuery actualPath⟩ ::
      (match template with
        | none => []
        | some t =>
          wildcardLoop method (pathSegsOf (stripQuery actualPath))
            (paramPositionsOf t.segments)
            (List.range (paramPositionsOf t.segments).length).reverse
            [method ++ " " ++ stripQuery actualPath]) ++
      [⟨method ++ " *", method ++ " *"⟩] := rfl
  refine ⟨?_, ?_, fun rest => matchesPattern_catchall method rest hms⟩
  · rw [hgen]
    have hmid : ∃ js : List Nat, js.Pairwise (fun a b => b ≤ a) ∧
        (match template with
          | none => ([] : List PatternOption)
          | some t =>
            wildcardLoop method (pathSegsOf (stripQuery actualPath))
              (paramPositionsOf t.segments)
              (List.range (paramPositionsOf t.segments).length).reverse
              [method ++ " " ++ stripQuery actualPath]) =
          js.map (fun i =>
            ⟨overlayPattern method (pathSegsOf (stripQuery actualPath))
                ((match template with
                  | none => []
                  | some t => paramPositionsOf t.segments).drop i),
              overlayPattern method (pathSegsOf (stripQuery actualPath))
                ((match template with
                  | none => []
                  | some t => paramPositionsOf t.segments).drop i)⟩) := by
      cases template with
      | none => exact ⟨[], List.Pairwise.nil, rfl⟩
      | some t =>
        obtain ⟨js, hsub, heq⟩ := wildcardLoop_sublist method
          (pathSegsOf (stripQuery actualPath)) (paramPositionsOf t.segments)
          (List.range (paramPositionsOf t.segments).length).reverse
          [method ++ " " ++ stripQuery actualPath]
        refine ⟨js, ?_, heq⟩
        have hrev : ((List.range (paramPositionsOf t.segments).length).reverse).Pairwise
            (fun a b => b < a) := by
          rw [List.pairwise_reverse]
          exact List.pairwise_lt_range _
        exact (hrev.sublist hsub).imp (fun h => Nat.le_of_lt h)
    obtain ⟨js, hjs, hmideq⟩ := hmid
    rw [hmideq, hexact]
    rw [List.cons_append, List.pairwise_cons]
    constructor
    · intro q hq K hK
      rcases List.mem_append.mp hq with hq | hq
      · obtain ⟨i, _, rfl⟩ := List.mem_map.mp hq
        exact overlay_match_mono method _ [] _ K hm hms hseg (by simp) hK
      · rcases List.mem_singleton.mp hq with rfl
        exact overlay_match_catchall method _ [] K hm hms hK
    · rw [List.pairwise_append]
      refine ⟨?_, List.pairwise_singleton _ _, ?_⟩
      · rw [List.pairwise_map]
        refine hjs.imp_of_mem ?_
        intro a b _ _ hba K hK
        exact overlay_match_mono method _ _ _ K hm hms hseg
          (drop_subset_drop _ a b hba) hK
      · intro p hp q hq K hK
        obtain ⟨i, _, rfl⟩ := List.mem_map.mp hp
        rcases List.mem_singleton.mp hq with rfl
        exact overlay_match_catchall method _ _ K hm hms hK
  · rw [hgen, List.getLast?_concat]

/-- C8 witness: for `GET /a/b` with a matched two-segment template the
suggestion list `[GET /a/b, GET /a/*, GET *]` is monotone and ends in the
catch-all. -/
theorem suggestion_monotone_witness :
    (generatePatternOptions "GET" "/a/b"
        (some ⟨"/a/\x7bx\x7d", [⟨"a", false⟩, ⟨"\x7bx\x7d", true⟩], ["GET"]⟩)).Pairwise
      (fun p q => ∀ K, matchesPattern p.pattern K = .ok true →
        matchesPattern q.pattern K = .ok true) ∧
    (generatePatternOptions "GET" "/a/b"
        (some ⟨"/a/\x7bx\x7d", [⟨"a", false⟩, ⟨"\x7bx\x7d", true⟩], ["GET"]⟩)).getLast? =
      some ⟨"GET" ++ " *", "GET" ++ " *"⟩ ∧
    (∀ rest : String,
      matchesPattern ("GET" ++ " *") ("GET" ++ " " ++ rest) = .ok true) :=
  suggestion_monotone "GET" "/a/b"
    (some ⟨"/a/\x7bx\x7d", [⟨"a", false⟩, ⟨"\x7bx\x7d", true⟩], ["GET"]⟩)
    (by decide) (by decide) (by decide) (by decide)

/-- C8 counterexample: with a trailing-slash path (and also with a request
method that is literally `GRAPHQL`) the second suggestion fails to match a
request key that the first (exact) suggestion matches, refuting the
unconditional superset claim; the failing template assignment is reachable
through the OpenAPI lookup. -/
theorem suggestion_not_monotone_trailing_slash :
    matchPathToTemplate
        [("h", [⟨"/a/\x7bx\x7d", [⟨"a", false⟩, ⟨"\x7bx\x7d", true⟩], ["GET"]⟩])]
        "h" "GET" "/a/b/" =
      some ⟨"/a/\x7bx\x7d", [⟨"a", false⟩, ⟨"\x7bx\x7d", true⟩], ["GET"]⟩ ∧
    generatePatternOptions "GET" "/a/b/"
        (some ⟨"/a/\x7bx\x7d", [⟨"a", false⟩, ⟨"\x7bx\x7d", true⟩], ["GET"]⟩) =
      [⟨"GET /a/b/", "GET /a/b/"⟩, ⟨"GET /a/*", "GET /a/*"⟩, ⟨"GET *", "GET *"⟩] ∧
    matchesPattern "GET /a/b/" "GET /a/b/" = .ok true ∧
    matchesPattern "GET /a/*" "GET /a/b/" = .ok false ∧
    generatePatternOptions "GRAPHQL" "/a/b"
        (some ⟨"/a/\x7bx\x7d", [⟨"a", false⟩, ⟨"\x7bx\x7d", true⟩], ["GET"]⟩) =
      [⟨"GRAPHQL /a/b", "GRAPHQL /a/b"⟩, ⟨"GRAPHQL /a/*", "GRAPHQL /a/*"⟩,
        ⟨"GRAPHQL *", "GRAPHQL *"⟩] ∧
    matchesPattern "GRAPHQL /a/b" "GRAPHQL /a/b" = .ok true ∧
    matchesPattern "GRAPHQL /a/*" "GRAPHQL /a/b" = .ok false :=
  ⟨by decide, by decide, by decide, by decide, by decide, by decide, by decide⟩

end HttpProxy
